import Mathlib

/-!
Verification of the marine-integrations dataset parsers.

This file gives a shallow embedding of two parsers of the repository and
proves properties of them:

* `mi/dataset/parser/presf_abc_dcl.py` — the line-oriented PRESF sieve
  (`PresfAbcDclParser.sieve_function`) and the wave-particle decoder
  (`PresfAbcDclParserWaveDataParticle._build_parsed_values`).  The Python
  code classifies newline-delimited lines with `re` patterns; we embed a
  small backtracking regular-expression engine whose enumeration order
  mirrors CPython's leftmost / greedy / first-alternative preference for
  the constructs those patterns use (literals, character classes, counted
  repetition, greedy star over a character class, greedy `?`, concatenation,
  ordered alternation, numbered groups), and translate each module-level
  pattern into the engine's syntax with the same group numbering.

* `mi/dataset/parser/ctdmo.py` — the binary CTDMO record decoder
  (`CtdmoParserDataParticle._build_parsed_values`) and the timestamp
  conversion (`CtdmoParser._convert_time_to_timestamp` together with the
  byte-order reversal performed in `parse_chunks`).  Bytes are embedded as
  natural numbers below 256; the repository runs under Python 2, where `/`
  on two ints is floor division, so the temperature and conductivity
  conversions are embedded with `Nat` division while the pressure
  conversion (whose first operand is a float) uses exact rational
  arithmetic.  Python float literals are embedded as the exact decimal
  rationals they are written as.
-/
/-! ## A backtracking regular-expression engine

`Regex.run r s` enumerates the prefix matches of `r` against `s`, most
preferred first, following CPython's backtracking order: a greedy star or
`?` offers longer consumptions first, an alternation offers its left branch
first, and concatenation backtracks through the left component's options in
order.  `Regex.run` returns for every match the consumed prefix, the rest
of the input, and the list of numbered group captures; `Regex.match?`
returns the preferred match, exactly like CPython's `re.match`. -/
/-- Numbered group captures of one regex match. -/
abbrev Caps := List (Nat × List Char)

/-- One match: consumed prefix, remaining input, group captures. -/
abbrev MatchRes := List Char × List Char × Caps

/-- Regular expressions over the constructs used by the presf patterns. -/
inductive Regex where
  | lit : List Char → Regex
  | cls : (Char → Bool) → Regex
  | rep : (Char → Bool) → Nat → Regex
  | star : (Char → Bool) → Regex
  | opt : Regex → Regex
  | cat : Regex → Regex → Regex
  | alt : Regex → Regex → Regex
  | group : Nat → Regex → Regex

/-- Match a literal character sequence at the front of the input. -/
def litTake : List Char → List Char → Option (List Char)
  | [], s => some s
  | _ :: _, [] => none
  | l :: ls, c :: cs => if c = l then litTake ls cs else none

/-- Match exactly `n` characters of class `p` at the front of the input. -/
def repTake (p : Char → Bool) : Nat → List Char → Option (List Char × List Char)
  | 0, s => some ([], s)
  | _ + 1, [] => none
  | n + 1, c :: cs =>
      if p c then (repTake p n cs).map (fun x => (c :: x.1, x.2)) else none

/-- All splits a greedy star over class `p` offers, longest first. -/
def starSplits (p : Char → Bool) : List Char → List (List Char × List Char)
  | [] => [([], [])]
  | c :: cs =>
      if p c then
        (starSplits p cs).map (fun x => (c :: x.1, x.2)) ++ [([], c :: cs)]
      else [([], c :: cs)]

/-- Enumerate the prefix matches of a regex, most preferred first. -/
def Regex.run : Regex → List Char → List MatchRes
  | .lit l, s =>
      match litTake l s with
      | some r => [(l, r, [])]
      | none => []
  | .cls p, s =>
      match s with
      | [] => []
      | c :: cs => if p c then [([c], cs, [])] else []
  | .rep p n, s =>
      match repTake p n s with
      | some x => [(x.1, x.2, [])]
      | none => []
  | .star p, s => (starSplits p s).map (fun x => (x.1, x.2, []))
  | .opt r, s => r.run s ++ [([], s, [])]
  | .cat r1 r2, s =>
      (r1.run s).flatMap (fun x =>
        (r2.run x.2.1).map (fun y => (x.1 ++ y.1, y.2.1, x.2.2 ++ y.2.2)))
  | .alt r1 r2, s => r1.run s ++ r2.run s
  | .group n r, s => (r.run s).map (fun x => (x.1, x.2.1, x.2.2 ++ [(n, x.1)]))

/-- The preferred match, like CPython's `re.match` (anchored, not `fullmatch`). -/
def Regex.match? (r : Regex) (s : List Char) : Option MatchRes :=
  (r.run s).head?

/-! ## The presf_abc_dcl patterns

Translations of the module-level patterns of `presf_abc_dcl.py`, with the
same numbered groups (Python numbers groups by order of opening
parenthesis).  `\d` is `[0-9]`, `\D` its complement, `\s` is Python 2's
`[ \t\n\r\v\f]`, and `.` matches anything but a newline character. -/
/-- Python `\d`. -/
def isDigitC (c : Char) : Bool := ['0','1','2','3','4','5','6','7','8','9'].contains c

/-- Python 2 `\s` (space, tab, newline, carriage return, vertical tab, form feed). -/
def isSpaceC (c : Char) : Bool := [' ', '\t', '\n', '\r', '\x0b', '\x0c'].contains c

/-- The class `[1-9]` that opens the `FLOAT` pattern. -/
def isNzDigit (c : Char) : Bool := ['1','2','3','4','5','6','7','8','9'].contains c

/-- Python `.`: any character but a newline. -/
def notNL (c : Char) : Bool := !(c == '\n')

/-- Python `\D`. -/
def isNonDigit (c : Char) : Bool := !(isDigitC c)

/-- Concatenation of a list of regexes (`cats []` matches the empty string). -/
def cats (l : List Regex) : Regex := l.foldr .cat (.lit [])

/-- `ANY_CHARS = r'.*'`. -/
def anyChars : Regex := .star notNL

/-- `NEW_LINE = r'(?:\r\n|\n)'`. -/
def newLine : Regex := .alt (.lit ['\r', '\n']) (.lit ['\n'])

/-- `WHITESPACE = r'(\s*)'`, capture number supplied at use site. -/
def wsRe (n : Nat) : Regex := .group n (.star isSpaceC)

/-- `FLOAT = r'([1-9][0-9]*\.?[0-9]*)'`, capture number supplied at use site. -/
def floatRe (n : Nat) : Regex :=
  .group n (cats [.cls isNzDigit, .star isDigitC, .opt (.lit ['.']), .star isDigitC])

/-- `DATE = r'(\d{4})/(\d{2})/(\d{2})'` (groups 2, 3, 4 inside `TIMESTAMP`). -/
def dateRe : Regex :=
  cats [.group 2 (.rep isDigitC 4), .lit ['/'], .group 3 (.rep isDigitC 2), .lit ['/'],
        .group 4 (.rep isDigitC 2)]

/-- `TIME = r'(\d{2}):(\d{2}):(\d{2})\.\d{3}'` (groups 6, 7, 8 inside `TIMESTAMP`). -/
def timeRe : Regex :=
  cats [.group 6 (.rep isDigitC 2), .lit [':'], .group 7 (.rep isDigitC 2), .lit [':'],
        .group 8 (.rep isDigitC 2), .lit ['.'], .rep isDigitC 3]

/-- `TIMESTAMP = START_GROUP + DATE + WHITESPACE + TIME + END_GROUP` (groups 1-8). -/
def timestampRe : Regex := .group 1 (cats [dateRe, wsRe 5, timeRe])

/-- `DATE_TIME_STR = r'(\d{2} \D{3} \d{4} \d{2}:\d{2}:\d{2})'`. -/
def dateTimeStrRe (n : Nat) : Regex :=
  .group n (cats [.rep isDigitC 2, .lit [' '], .rep isNonDigit 3, .lit [' '],
                  .rep isDigitC 4, .lit [' '], .rep isDigitC 2, .lit [':'],
                  .rep isDigitC 2, .lit [':'], .rep isDigitC 2])

/-- `METADATA_MATCHER`. -/
def metadataRe : Regex :=
  cats [timestampRe, wsRe 9, .lit ['['], anyChars, .lit [']'], anyChars, newLine]

/-- `TIDE_MATCHER` (groups 12, 15, 18, 21 are the data groups). -/
def tideRe : Regex :=
  cats [timestampRe, wsRe 9, .lit "tide:".toList, wsRe 10, .lit "start time =".toList,
        wsRe 11, dateTimeStrRe 12, .lit [','], wsRe 13, .lit "p =".toList, wsRe 14,
        floatRe 15, .lit [','], wsRe 16, .lit "pt =".toList, wsRe 17, floatRe 18,
        .lit [','], wsRe 19, .lit "t =".toList, wsRe 20, floatRe 21, newLine]

/-- `WAVE_START_MATCHER` (group 12 is the date-time string). -/
def waveStartRe : Regex :=
  cats [timestampRe, wsRe 9, .lit "wave:".toList, wsRe 10, .lit "start time =".toList,
        wsRe 11, dateTimeStrRe 12, newLine]

/-- `WAVE_PTFREQ_MATCHER` (group 12 is the ptfreq value). -/
def wavePtfreqRe : Regex :=
  cats [timestampRe, wsRe 9, .lit "wave:".toList, wsRe 10, .lit "ptfreq =".toList,
        wsRe 11, floatRe 12, newLine]

/-- `WAVE_CONT_MATCHER` (group 10 is the absolute-pressure sample). -/
def waveContRe : Regex := cats [timestampRe, wsRe 9, floatRe 10, newLine]

/-- `WAVE_END_MATCHER`. -/
def waveEndRe : Regex := cats [timestampRe, wsRe 9, .lit "wave: end burst".toList, newLine]

/-- `PRESF_RECORD_MATCHER = ANY_CHARS + NEW_LINE`. -/
def presfRecordRe : Regex := cats [anyChars, newLine]

/-! ## The sieve

`PresfAbcDclParser.sieve_function`, embedded over `List Char`.  The Python
loop keeps an integer `data_index` into `raw_data`, extracts the next
newline-delimited line with `PRESF_RECORD_MATCHER`, classifies it against
the six line patterns in a fixed order, runs the wave-burst state machine,
and appends `(start, end)` offset pairs to `return_list`; reaching any of
its `raise RecoverableSampleException` statements abandons the whole
invocation, so the embedding returns `Except`, and an error discards the
ranges accumulated so far exactly as the exception does.

The Lean recursion is driven by a fuel argument for structural
termination; every loop iteration of the source consumes at least one byte
(each line pattern ends with `NEW_LINE`), so with the initial fuel
`raw_data.length + 1` used by `sieve_function` the fuel cannot run out.
Running out of fuel is nevertheless kept as a distinguished error so that
nothing is hidden by the embedding. -/
deriving instance DecidableEq for Except

/-- The `wave_record_inprocess` enum of `sieve_function`. -/
inductive WaveState where
  | notInProcess
  | started
  | ptfreq
  | cont
deriving DecidableEq, Repr

/-- How a sieve invocation can abort. -/
inductive SieveErr where
  /-- A `raise RecoverableSampleException` statement was reached. -/
  | recoverableSample
  /-- The fuel ran out (not reachable from `sieve_function`, whose fuel
  exceeds the input length). -/
  | fuelExhausted
deriving DecidableEq, Repr

/-- The body of `sieve_function`'s `while` loop.  `rem` is
`raw_data[data_index:]`; `wsi` is `wave_record_start_index`. -/
def sieveLoopF : Nat → List Char → Nat → WaveState → Nat →
    Except SieveErr (List (Nat × Nat))
  | 0, _, _, _, _ => .error .fuelExhausted
  | fuel + 1, rem, dataIndex, st, wsi =>
    match presfRecordRe.match? rem with
    | none => .ok []
    | some (line, _, _) =>
      match metadataRe.match? line with
      | some (m, _, _) =>
          sieveLoopF fuel (rem.drop m.length) (dataIndex + m.length) st wsi
      | none =>
      match tideRe.match? line with
      | some (m, _, _) =>
          (sieveLoopF fuel (rem.drop m.length) (dataIndex + m.length) st wsi).map
            (fun l => (dataIndex, dataIndex + m.length) :: l)
      | none =>
      match waveStartRe.match? line with
      | some (m, _, _) =>
          if st ≠ WaveState.notInProcess then .error .recoverableSample
          else sieveLoopF fuel (rem.drop m.length) (dataIndex + m.length)
                 WaveState.started dataIndex
      | none =>
      match wavePtfreqRe.match? line with
      | some (m, _, _) =>
          if st ≠ WaveState.started then .error .recoverableSample
          else sieveLoopF fuel (rem.drop m.length) (dataIndex + m.length)
                 WaveState.ptfreq wsi
      | none =>
      match waveContRe.match? line with
      | some (m, _, _) =>
          if st ≠ WaveState.ptfreq ∧ st ≠ WaveState.cont then .error .recoverableSample
          else sieveLoopF fuel (rem.drop m.length) (dataIndex + m.length)
                 WaveState.cont wsi
      | none =>
      match waveEndRe.match? line with
      | some (m, _, _) =>
          if st ≠ WaveState.cont then .error .recoverableSample
          else (sieveLoopF fuel (rem.drop m.length) (dataIndex + m.length)
                  WaveState.notInProcess wsi).map
                 (fun l => (wsi, dataIndex + m.length) :: l)
      | none => .error .recoverableSample

/-- `PresfAbcDclParser.sieve_function` on one immutable span. -/
def sieve_function (raw : List Char) : Except SieveErr (List (Nat × Nat)) :=
  sieveLoopF (raw.length + 1) raw 0 WaveState.notInProcess 0

/-! ## The wave particle decoder

`PresfAbcDclParserWaveDataParticle._build_parsed_values`, embedded the same
way.  The Python loop walks the already-sieved byte range line by line,
trying `WAVE_START`, `WAVE_PTFREQ`, `WAVE_CONT`, `WAVE_END` in that order;
the start branch re-matches `WAVE_START_MATCHER` against the whole
`raw_data` to pull the two start captures.  Values are kept as the captured
character strings; the source passes them through `_encode_value` with
`str`/`float`/`list` encoders afterwards.  A line matched by
`PRESF_RECORD_MATCHER` but by none of the four wave patterns makes the
source loop forever (no branch advances `data_index`); the embedding
returns the distinguished error `diverge` there. -/
/-- How the wave particle build can fail. -/
inductive BuildErr where
  /-- `record_match` was `None`: the `raise RecoverableSampleException` branch. -/
  | recoverableSample
  /-- A complete line matched none of the four wave patterns: the source
  loops forever without advancing `data_index`. -/
  | diverge
  /-- A local variable is read before any line assigned it
  (`NameError` in the source). -/
  | unboundLocal
  /-- `WAVE_START_MATCHER.match(self.raw_data)` returned `None` and the
  source dereferences it (`AttributeError`). -/
  | attributeError
  /-- The fuel ran out (unreachable from `build_parsed_values`). -/
  | fuelExhausted
deriving DecidableEq, Repr

/-- The field set built by the wave particle, values as captured strings. -/
structure WaveRecord where
  dclControllerStartTimestamp : List Char
  dclControllerEndTimestamp : List Char
  dateTimeString : List Char
  ptempFrequency : List Char
  absolutePressureBurst : List (List Char)
deriving DecidableEq, Repr

/-- The body of `_build_parsed_values`'s `while` loop.  `raw` is the whole
`self.raw_data`, `rem` is `raw_data[data_index:]`; the four `Option`
arguments are the not-yet-assigned locals, `burst` is
`absolute_pressure_burst`. -/
def buildLoopF : Nat → List Char → List Char → Option (List Char) →
    Option (List Char) → Option (List Char) → Option (List Char) →
    List (List Char) → Except BuildErr WaveRecord
  | 0, _, _, _, _, _, _, _ => .error .fuelExhausted
  | fuel + 1, raw, rem, sTs, dts, pt, eTs, burst =>
    if rem.isEmpty then
      -- `data_index >= raw_data_len`: fall out of the loop and build the result
      match sTs, eTs, dts, pt with
      | some a, some b, some c, some d =>
          .ok { dclControllerStartTimestamp := a, dclControllerEndTimestamp := b,
                dateTimeString := c, ptempFrequency := d,
                absolutePressureBurst := burst }
      | _, _, _, _ => .error .unboundLocal
    else
      match presfRecordRe.match? rem with
      | none => .error .recoverableSample
      | some (line, _, _) =>
        match waveStartRe.match? line with
        | some (m, _, _) =>
            match waveStartRe.match? raw with
            | none => .error .attributeError
            | some (_, _, caps) =>
                match caps.lookup 1, caps.lookup 12 with
                | some g1, some g12 =>
                    buildLoopF fuel raw (rem.drop m.length) (some g1) (some g12)
                      pt eTs burst
                | _, _ => .error .unboundLocal
        | none =>
        match wavePtfreqRe.match? line with
        | some (m, _, caps) =>
            match caps.lookup 12 with
            | some g12 =>
                buildLoopF fuel raw (rem.drop m.length) sTs dts (some g12) eTs burst
            | none => .error .unboundLocal
        | none =>
        match waveContRe.match? line with
        | some (m, _, caps) =>
            match caps.lookup 10 with
            | some g10 =>
                buildLoopF fuel raw (rem.drop m.length) sTs dts pt eTs
                  (burst ++ [g10])
            | none => .error .unboundLocal
        | none =>
        match waveEndRe.match? line with
        | some (m, _, caps) =>
            match caps.lookup 1 with
            | some g1 =>
                buildLoopF fuel raw (rem.drop m.length) sTs dts pt (some g1) burst
            | none => .error .unboundLocal
        | none => .error .diverge

/-- `PresfAbcDclParserWaveDataParticle._build_parsed_values` on one range. -/
def build_parsed_values (raw : List Char) : Except BuildErr WaveRecord :=
  buildLoopF (raw.length + 1) raw raw none none none none []

/-! ## The CTDMO decoder

`CtdmoParserDataParticle._build_parsed_values` and the timestamp handling
of `CtdmoParser.parse_chunks` / `_convert_time_to_timestamp`.  A record is
a byte string matched by
`DATA_REGEX = b'[\x00-\xFF]{8}([\x00-\xFF]{3}[\x16-\x40]{1})\x0d'`:
thirteen bytes whose twelfth lies in `0x16..0x40` and whose thirteenth is
`0x0d` (`re.match` does not require the input to end there).  The decoder
hex-encodes the matched bytes (`binascii.b2a_hex`) and slices fixed
character offsets out of the hex string; we represent the hex string as the
list of nibble values. -/
/-- `binascii.b2a_hex`, as the list of nibble values (two per byte). -/
def b2aHex (bs : List Nat) : List Nat := bs.flatMap (fun b => [b / 16, b % 16])

/-- Python slice `l[a:b]` (for `a ≤ b ≤ len l`). -/
def pySlice (l : List Nat) (a b : Nat) : List Nat := (l.drop a).take (b - a)

/-- `int(hexdigits, 16)` over a list of nibble values. -/
def hexVal (ns : List Nat) : Nat := ns.foldl (fun acc n => 16 * acc + n) 0

/-- Whether `DATA_MATCHER.match` succeeds on the byte string. -/
def ctdDataMatch (bs : List Nat) : Bool :=
  decide (13 ≤ bs.length) && (bs.take 13).all (fun b => b ≤ 255) &&
    (match bs.get? 11 with
     | some b => decide (0x16 ≤ b ∧ b ≤ 0x40)
     | none => false) &&
    (bs.get? 12 == some 0x0d)

/-- `asciihex = binascii.b2a_hex(match.group(0))`: the 26 nibbles of the
thirteen matched bytes. -/
def ctdAsciihex (bs : List Nat) : List Nat := b2aHex (bs.take 13)

/-- `temp_num = int(asciihex[2:7], 16)`. -/
def ctdTempRaw (bs : List Nat) : Nat := hexVal (pySlice (ctdAsciihex bs) 2 7)

/-- `cond_num = int(asciihex[7:12], 16)`. -/
def ctdCondRaw (bs : List Nat) : Nat := hexVal (pySlice (ctdAsciihex bs) 7 12)

/-- `press_num = int(asciihex[14:16] + asciihex[12:14], 16)`: the
byte-swapped pressure raw value. -/
def ctdPressRaw (bs : List Nat) : Nat :=
  hexVal (pySlice (ctdAsciihex bs) 14 16 ++ pySlice (ctdAsciihex bs) 12 14)

/-- `pressure_range = .6894757 * (1000 - 14)`. -/
def pressureRange : ℚ := 0.6894757 * (1000 - 14)

/-- The decoded CTD values.  The source's `temp` is a Python 2 int, the
other two are floats; all are embedded in `ℚ`. -/
structure CtdSample where
  temperature : ℚ
  conductivity : ℚ
  pressure : ℚ
deriving DecidableEq, Repr

/-- `CtdmoParserDataParticle._build_parsed_values`: `none` models the
`SampleException` raised when the pattern does not match.  Under Python 2,
`temp_num / 10000` and `cond_num / 100000` are int floor divisions, so they
are embedded with `Nat` division; the pressure expression multiplies the
int by a float first, so it is exact rational arithmetic. -/
def ctdDecode (bs : List Nat) : Option CtdSample :=
  if ctdDataMatch bs then
    some { temperature := ((ctdTempRaw bs / 10000 : Nat) : ℚ) - 10,
           conductivity := ((ctdCondRaw bs / 100000 : Nat) : ℚ) - 0.5,
           pressure := (ctdPressRaw bs : ℚ) * pressureRange / (0.85 * 65536)
             - 0.05 * pressureRange }
  else none

/-- The byte-order reversal of `parse_chunks`:
`timehex_reverse = asciihextime[6:8] + asciihextime[4:6] + asciihextime[2:4]
+ asciihextime[0:2]` applied to the hex encoding of `match.group(1)` (the
four bytes at offsets 8..11), then `int(timehex_reverse, 16)`. -/
def ctdTimeVal (bs4 : List Nat) : Nat :=
  hexVal (pySlice (b2aHex bs4) 6 8 ++ pySlice (b2aHex bs4) 4 6 ++
            pySlice (b2aHex bs4) 2 4 ++ pySlice (b2aHex bs4) 0 2)

/-- `CtdmoParser._convert_time_to_timestamp`, up to the epoch shift:
`sec_since_1970 = sec_since_2000 + (31557600*30)`.  The subsequent
`time.localtime` / `time.mktime` round trip and the NTP-era shift are
environment-dependent and outside the claims. -/
def convertTimeToTimestamp (secSince2000 : Nat) : Nat :=
  secSince2000 + 31557600 * 30

/-- `requiresChar r χ` means every match of `r` must contain `χ`. -/
def requiresChar : Regex → Char → Bool
  | .lit l, χ => l.contains χ
  | .cls _, _ => false
  | .rep _ _, _ => false
  | .star _, _ => false
  | .opt _, _ => false
  | .cat a b, χ => requiresChar a χ || requiresChar b χ
  | .alt a b, χ => requiresChar a χ && requiresChar b χ
  | .group _ a, χ => requiresChar a χ

/-- The deterministic greedy-path evaluator: follows each construct's most
preferred option and fails if that path fails while cheaper options might
remain.  `firstMatch_sound` shows that on success it computes exactly
`Regex.match?`. -/
def firstMatch : Regex → List Char → Option MatchRes
  | .lit l, s => (litTake l s).map (fun rest => (l, rest, []))
  | .cls p, s =>
      match s with
      | [] => none
      | c :: cs => if p c then some ([c], cs, []) else none
  | .rep p n, s => (repTake p n s).map (fun x => (x.1, x.2, []))
  | .star p, s => some (s.takeWhile p, s.dropWhile p, [])
  | .opt r, s =>
      match firstMatch r s with
      | some x => some x
      | none => if (r.run s).isEmpty then some ([], s, []) else none
  | .cat r1 r2, s =>
      (firstMatch r1 s).bind (fun x =>
        (firstMatch r2 x.2.1).map (fun y => (x.1 ++ y.1, y.2.1, x.2.2 ++ y.2.2)))
  | .alt r1 r2, s =>
      match firstMatch r1 s with
      | some x => some x
      | none => if (r1.run s).isEmpty then firstMatch r2 s else none
  | .group n r, s => (firstMatch r s).map (fun x => (x.1, x.2.1, x.2.2 ++ [(n, x.1)]))

/-! ## Concrete lines and the continuation-line shape

Everything the C1 span needs: the fixture-style start, ptfreq and end lines
(concrete), a tide line, and continuation lines whose sample value is an
arbitrary string of the shape `[1-9][0-9]*\.[0-9]*` (the shape the `FLOAT`
pattern accepts, with the optional decimal point present). -/
/-- The timestamp prefix used by the symbolic continuation lines. -/
def tsC : List Char := "2014/04/17 00:15:22.343".toList

/-- A continuation line before its newline: timestamp, one space, value. -/
def contPre (v : List Char) : List Char := tsC ++ ' ' :: v

/-- A wave continuation line carrying sample value `v`. -/
def contL (v : List Char) : List Char := contPre v ++ ['\n']

/-- The shape of sample values used for continuation lines: a nonzero
digit, digits, a decimal point, digits. -/
def ContVal (v : List Char) : Prop :=
  ∃ c ds1 ds2, isNzDigit c = true ∧ (∀ a ∈ ds1, isDigitC a = true) ∧
    (∀ a ∈ ds2, isDigitC a = true) ∧ v = c :: (ds1 ++ '.' :: ds2)

/-- A wave burst start line (before the newline). -/
def wstartPre : List Char :=
  "2014/04/17 00:15:21.941 wave: start time = 17 Apr 2014 00:15:21".toList

/-- A wave burst start line. -/
def wstartL : List Char := wstartPre ++ ['\n']

/-- A wave ptfreq line (before the newline). -/
def ptfreqPre : List Char := "2014/04/17 00:15:21.974 wave: ptfreq = 171791.359".toList

/-- A wave ptfreq line. -/
def ptfreqL : List Char := ptfreqPre ++ ['\n']

/-- A wave burst end line (before the newline). -/
def wendPre : List Char := "2014/04/17 00:15:29.954 wave: end burst".toList

/-- A wave burst end line. -/
def wendL : List Char := wendPre ++ ['\n']

/-- A tide line (before the newline), the spec's own example record. -/
def tidePre : List Char :=
  "2014/04/17 17:59:11.323 tide: start time = 17 Apr 2014 17:00:00, p = 14.6612, pt = 11.380, t = 11.5248".toList

/-- A tide line. -/
def tideL : List Char := tidePre ++ ['\n']

/-- The alternation-free fragment (with `?` only over one-character
literals) for which a greedy-path result extends to longer inputs.  All
line bodies (their patterns before the final `NEW_LINE`) are in it. -/
def ExtOk : Regex → Bool
  | .lit _ => true
  | .cls _ => true
  | .rep _ _ => true
  | .star _ => true
  | .opt (.lit [_]) => true
  | .opt _ => false
  | .cat a b => ExtOk a && ExtOk b
  | .alt _ _ => false
  | .group _ a => ExtOk a

/-- The group captures of the wave-start line, as the engine produces
them (inner groups first, each group after its content). -/
def wstartCaps : Caps :=
  [(2, "2014".toList), (3, "04".toList), (4, "17".toList), (5, [' ']),
   (6, "00".toList), (7, "15".toList), (8, "21".toList),
   (1, "2014/04/17 00:15:21.941".toList), (9, [' ']), (10, [' ']), (11, [' ']),
   (12, "17 Apr 2014 00:15:21".toList)]

/-- The concatenated continuation lines of a burst. -/
def contBlock (vs : List (List Char)) : List Char := (vs.map contL).flatten

/-- A full wave-burst span: start line, ptfreq line, continuation lines,
end line. -/
def c1Span (vs : List (List Char)) : List Char :=
  wstartL ++ (ptfreqL ++ (contBlock vs ++ wendL))

/-- The DCL timestamp captured by group 1 of the end line. -/
def wendTs : List Char := "2014/04/17 00:15:29.954".toList

/-- The DCL timestamp captured by group 1 of the start line. -/
def wstartTs : List Char := "2014/04/17 00:15:21.941".toList

/-- The embedded date-time string captured by group 12 of the start line. -/
def wstartDts : List Char := "17 Apr 2014 00:15:21".toList

/-- The ptfreq value captured by group 12 of the ptfreq line. -/
def ptfreqVal : List Char := "171791.359".toList

/-- The invariant carried by the ranges the sieve emits: each range is
nonempty, ends inside the span right after a newline character, ends after
the previous range's end, and the rest of the list continues from there. -/
def okRanges (raw : List Char) : Nat → List (Nat × Nat) → Prop
  | _, [] => True
  | lo, (s, e) :: t =>
      s < e ∧ e ≤ raw.length ∧ lo < e ∧ raw.get? (e - 1) = some '\n' ∧
        okRanges raw e t

/-- The length of the span's newline-terminated prefix: everything before
the incomplete trailing line. -/
def completePrefixLen (raw : List Char) : Nat :=
  raw.length - (raw.reverse.takeWhile notNL).length

/-- A burst span with a tide line inside it, used for claim C6. -/
def c6span : List Char :=
  wstartL ++ (ptfreqL ++ (contL "14.6498".toList ++ (tideL ++ wendL)))

/-- A span whose leading tide record is followed by a malformed double
burst start, used for claim C4. -/
def c4span : List Char := tideL ++ (wstartL ++ (wstartL ++ tideL))

/-- A complete line matching none of the six grammars. -/
def badL : List Char := "2014/04/17 00:15:22.343 hello\n".toList

/-- A tide-family line whose numeric value has a leading zero digit. -/
def zeroL : List Char := "2014/04/17 00:15:22.343 0.5123\n".toList

/-- A burst whose continuation value has a leading zero, used for C9. -/
def c9span : List Char := wstartL ++ (ptfreqL ++ zeroL)

/-- A CTD record whose temperature raw value is 12345. -/
def c2bytes : List Nat := [0x00, 0x03, 0x03, 0x90, 0, 0, 0, 0, 0, 0, 0, 0x16, 0x0d]

/-- A record with pressure bytes `0x12 0x34`. -/
def c7bytes : List Nat := [0, 0, 0, 0, 0, 0, 0x12, 0x34, 0, 0, 0, 0x16, 0x0d]

/-! ## Generic engine lemmas -/
/-- A successful literal match splits the input. -/
theorem litTake_split : ∀ l s r, litTake l s = some r → s = l ++ r := by
  intro l
  induction l with
  | nil => intro s r h; simp [litTake] at h; simp [h]
  | cons c cs ih =>
      intro s r h
      cases s with
      | nil => simp [litTake] at h
      | cons a as =>
          simp only [litTake] at h
          split at h
          · next heq => subst heq; simpa using ih as r h
          · exact absurd h (by simp)

/-- A successful counted repetition splits the input. -/
theorem repTake_split (p : Char → Bool) :
    ∀ n s x, repTake p n s = some x → s = x.1 ++ x.2 := by
  intro n
  induction n with
  | zero => intro s x h; simp [repTake] at h; simp [← h]
  | succ n ih =>
      intro s x h
      cases s with
      | nil => simp [repTake] at h
      | cons c cs =>
          simp only [repTake] at h
          split at h
          · cases hx : repTake p n cs with
            | none => rw [hx] at h; simp at h
            | some y =>
                rw [hx] at h
                simp only [Option.map_some', Option.some.injEq] at h
                subst h
                simp [ih cs y hx]
          · simp at h

/-- Every split a star offers splits the input. -/
theorem starSplits_split (p : Char → Bool) :
    ∀ s x, x ∈ starSplits p s → s = x.1 ++ x.2 := by
  intro s
  induction s with
  | nil => intro x h; simp [starSplits] at h; simp [h]
  | cons c cs ih =>
      intro x h
      simp only [starSplits] at h
      split at h
      · rcases List.mem_append.1 h with h1 | h1
        · rcases List.mem_map.1 h1 with ⟨y, hy, rfl⟩
          simp [ih y hy]
        · simp at h1; simp [h1]
      · simp at h; simp [h]

/-- Every enumerated match splits the input into consumed prefix and rest. -/
theorem run_split : ∀ (r : Regex) s x, x ∈ r.run s → s = x.1 ++ x.2.1 := by
  intro r
  induction r with
  | lit l =>
      intro s x h
      simp only [Regex.run] at h
      cases hl : litTake l s with
      | none => rw [hl] at h; simp at h
      | some r' =>
          rw [hl] at h
          rcases List.mem_singleton.1 h with rfl
          simpa using litTake_split _ _ _ hl
  | cls p =>
      intro s x h
      cases s with
      | nil => simp [Regex.run] at h
      | cons c cs =>
          simp only [Regex.run] at h
          split at h
          · rcases List.mem_singleton.1 h with rfl; simp
          · simp at h
  | rep p n =>
      intro s x h
      simp only [Regex.run] at h
      cases hr : repTake p n s with
      | none => rw [hr] at h; simp at h
      | some y =>
          rw [hr] at h
          rcases List.mem_singleton.1 h with rfl
          simpa using repTake_split _ _ _ _ hr
  | star p =>
      intro s x h
      simp only [Regex.run, List.mem_map] at h
      rcases h with ⟨y, hy, rfl⟩
      exact starSplits_split p s y hy
  | opt r ih =>
      intro s x h
      simp only [Regex.run] at h
      rcases List.mem_append.1 h with h1 | h1
      · exact ih s x h1
      · rcases List.mem_singleton.1 h1 with rfl; simp
  | cat r1 r2 ih1 ih2 =>
      intro s x h
      simp only [Regex.run, List.mem_flatMap, List.mem_map] at h
      rcases h with ⟨a, ha, y, hy, rfl⟩
      have e1 := ih1 s a ha
      have e2 := ih2 a.2.1 y hy
      simp [e1, e2, List.append_assoc]
  | alt r1 r2 ih1 ih2 =>
      intro s x h
      rcases List.mem_append.1 h with h1 | h1
      · exact ih1 s x h1
      · exact ih2 s x h1
  | group n r ih =>
      intro s x h
      simp only [Regex.run, List.mem_map] at h
      rcases h with ⟨y, hy, rfl⟩
      exact ih s y hy

/-- Decomposition of a concatenation match. -/
theorem mem_run_cat {r1 r2 : Regex} {s : List Char} {x : MatchRes} :
    x ∈ (r1.cat r2).run s ↔
      ∃ a ∈ r1.run s, ∃ b ∈ r2.run a.2.1,
        x = (a.1 ++ b.1, b.2.1, a.2.2 ++ b.2.2) := by
  simp only [Regex.run, List.mem_flatMap, List.mem_map]
  constructor
  · rintro ⟨a, ha, b, hb, rfl⟩; exact ⟨a, ha, b, hb, rfl⟩
  · rintro ⟨a, ha, b, hb, rfl⟩; exact ⟨a, ha, b, hb, rfl⟩

/-- Every `NEW_LINE` match consumes `"\r\n"` or `"\n"`. -/
theorem newLine_run_mem {s : List Char} {x : MatchRes} (h : x ∈ newLine.run s) :
    x.1 = ['\r', '\n'] ∨ x.1 = ['\n'] := by
  simp only [newLine, Regex.run] at h
  rcases List.mem_append.1 h with h1 | h1
  · cases hl : litTake ['\r', '\n'] s with
    | none => rw [hl] at h1; simp at h1
    | some r' =>
        rw [hl] at h1
        rcases List.mem_singleton.1 h1 with rfl
        left; rfl
  · cases hl : litTake ['\n'] s with
    | none => rw [hl] at h1; simp at h1
    | some r' =>
        rw [hl] at h1
        rcases List.mem_singleton.1 h1 with rfl
        right; rfl

/-- A match of a pattern that ends with `NEW_LINE` ends with a newline
character. -/
theorem run_cats_nl : ∀ (rs : List Regex) (s : List Char) (x : MatchRes),
    x ∈ (cats (rs ++ [newLine])).run s → ∃ pre, x.1 = pre ++ ['\n'] := by
  intro rs
  induction rs with
  | nil =>
      intro s x h
      simp only [cats, List.nil_append, List.foldr] at h
      rcases mem_run_cat.1 h with ⟨a, ha, b, hb, rfl⟩
      have hb1 : b.1 = [] := by
        simp only [Regex.run, litTake] at hb
        rcases List.mem_singleton.1 hb with rfl
        rfl
      rcases newLine_run_mem ha with h2 | h2
      · exact ⟨['\r'], by simp [h2, hb1]⟩
      · exact ⟨[], by simp [h2, hb1]⟩
  | cons r rs ih =>
      intro s x h
      simp only [List.cons_append, cats, List.foldr] at h
      rcases mem_run_cat.1 h with ⟨a, ha, b, hb, rfl⟩
      rcases ih a.2.1 b (by simpa [cats] using hb) with ⟨pre, hpre⟩
      exact ⟨a.1 ++ pre, by simp [hpre]⟩

/-- A regex that requires a character only matches strings containing it. -/
theorem requiresChar_sound : ∀ (r : Regex) (χ : Char) (s : List Char) (x : MatchRes),
    requiresChar r χ = true → x ∈ r.run s → χ ∈ x.1 := by
  intro r
  induction r with
  | lit l =>
      intro χ s x hr h
      simp only [Regex.run] at h
      cases hl : litTake l s with
      | none => rw [hl] at h; simp at h
      | some r' =>
          rw [hl] at h
          rcases List.mem_singleton.1 h with rfl
          simpa [requiresChar, List.contains_eq_any_beq] using hr
  | cls p => intro χ s x hr _; simp [requiresChar] at hr
  | rep p n => intro χ s x hr _; simp [requiresChar] at hr
  | star p => intro χ s x hr _; simp [requiresChar] at hr
  | opt r _ => intro χ s x hr _; simp [requiresChar] at hr
  | cat r1 r2 ih1 ih2 =>
      intro χ s x hr h
      rcases mem_run_cat.1 h with ⟨a, ha, b, hb, rfl⟩
      simp only [requiresChar, Bool.or_eq_true] at hr
      rcases hr with hr | hr
      · exact List.mem_append.2 (Or.inl (ih1 χ s a hr ha))
      · exact List.mem_append.2 (Or.inr (ih2 χ a.2.1 b hr hb))
  | alt r1 r2 ih1 ih2 =>
      intro χ s x hr h
      simp only [requiresChar, Bool.and_eq_true] at hr
      rcases List.mem_append.1 h with h1 | h1
      · exact ih1 χ s x hr.1 h1
      · exact ih2 χ s x hr.2 h1
  | group n r ih =>
      intro χ s x hr h
      simp only [Regex.run, List.mem_map] at h
      rcases h with ⟨y, hy, rfl⟩
      exact ih χ s y (by simpa [requiresChar] using hr) hy

/-- The preferred match is one of the enumerated matches. -/
theorem match?_mem {r : Regex} {s : List Char} {x : MatchRes}
    (h : r.match? s = some x) : x ∈ r.run s := by
  unfold Regex.match? at h
  cases hl : r.run s with
  | nil => rw [hl] at h; simp at h
  | cons a t => rw [hl] at h; simp at h; simp [h]

/-- If no enumerated match exists, the preferred match is `none`. -/
theorem match?_eq_none {r : Regex} {s : List Char} (h : r.run s = []) :
    r.match? s = none := by
  simp [Regex.match?, h]

/-- No match exists when a required character is absent from the input. -/
theorem run_eq_nil_of_requiresChar {r : Regex} {χ : Char} {s : List Char}
    (hr : requiresChar r χ = true) (hs : χ ∉ s) : r.run s = [] := by
  cases h : r.run s with
  | nil => rfl
  | cons a t =>
      exfalso
      apply hs
      have ha : a ∈ r.run s := by rw [h]; simp
      have hmem := requiresChar_sound r χ s a hr ha
      have hsplit := run_split r s a ha
      rw [hsplit]
      exact List.mem_append.2 (Or.inl hmem)

/-- The star's preferred split is the maximal one. -/
theorem starSplits_head (p : Char → Bool) :
    ∀ s, (starSplits p s).head? = some (s.takeWhile p, s.dropWhile p) := by
  intro s
  induction s with
  | nil => rfl
  | cons c cs ih =>
      simp only [starSplits, List.takeWhile, List.dropWhile]
      cases hc : p c with
      | false => simp
      | true =>
          simp only [if_pos rfl]
          cases hs : starSplits p cs with
          | nil => rw [hs] at ih; simp at ih
          | cons a t =>
              rw [hs] at ih
              simp at ih
              simp [hs, ih]

/-- The star always offers at least one split. -/
theorem starSplits_ne_nil (p : Char → Bool) (s : List Char) :
    starSplits p s ≠ [] := by
  intro h
  have := starSplits_head p s
  rw [h] at this
  simp at this

/-- When the greedy path succeeds it is the preferred match. -/
theorem firstMatch_sound : ∀ (r : Regex) (s : List Char) (x : MatchRes),
    firstMatch r s = some x → r.match? s = some x := by
  intro r
  induction r with
  | lit l =>
      intro s x h
      simp only [firstMatch] at h
      cases hl : litTake l s with
      | none => rw [hl] at h; simp at h
      | some r' =>
          rw [hl] at h
          simp at h
          simp [Regex.match?, Regex.run, hl, ← h]
  | cls p =>
      intro s x h
      cases s with
      | nil => simp [firstMatch] at h
      | cons c cs =>
          simp only [firstMatch] at h
          split at h
          · simp at h; simp [Regex.match?, Regex.run, *]
          · simp at h
  | rep p n =>
      intro s x h
      simp only [firstMatch] at h
      cases hr : repTake p n s with
      | none => rw [hr] at h; simp at h
      | some y =>
          rw [hr] at h; simp at h
          simp [Regex.match?, Regex.run, hr, ← h]
  | star p =>
      intro s x h
      simp only [firstMatch, Option.some.injEq] at h
      subst h
      have := starSplits_head p s
      cases hs : starSplits p s with
      | nil => exact absurd hs (starSplits_ne_nil p s)
      | cons a t =>
          rw [hs] at this; simp at this
          simp [Regex.match?, Regex.run, hs, this]
  | opt r ih =>
      intro s x h
      simp only [firstMatch] at h
      cases hf : firstMatch r s with
      | some y =>
          rw [hf] at h; simp at h; subst h
          have := ih s y hf
          simp only [Regex.match?] at this ⊢
          cases hl : r.run s with
          | nil => rw [hl] at this; simp at this
          | cons a t =>
              rw [hl] at this; simp at this
              simp [Regex.run, hl, this]
      | none =>
          rw [hf] at h
          simp only at h
          split at h
          · next he =>
              simp only [Option.some.injEq] at h
              subst h
              have hnil : r.run s = [] := by
                cases hl : r.run s with
                | nil => rfl
                | cons a t => rw [hl] at he; simp at he
              simp [Regex.match?, Regex.run, hnil]
          · simp at h
  | cat r1 r2 ih1 ih2 =>
      intro s x h
      simp only [firstMatch] at h
      cases h1 : firstMatch r1 s with
      | none => rw [h1] at h; simp at h
      | some a =>
          rw [h1] at h
          simp only [Option.some_bind] at h
          cases h2 : firstMatch r2 a.2.1 with
          | none => rw [h2] at h; simp at h
          | some b =>
              rw [h2] at h; simp at h; subst h
              have m1 := ih1 s a h1
              have m2 := ih2 a.2.1 b h2
              simp only [Regex.match?] at m1 m2 ⊢
              cases hl1 : r1.run s with
              | nil => rw [hl1] at m1; simp at m1
              | cons a0 t1 =>
                  rw [hl1] at m1; simp at m1
                  cases hl2 : r2.run a.2.1 with
                  | nil => rw [hl2] at m2; simp at m2
                  | cons b0 t2 =>
                      rw [hl2] at m2; simp at m2
                      subst m1
                      simp [Regex.run, hl1, hl2, m2]
  | alt r1 r2 ih1 ih2 =>
      intro s x h
      simp only [firstMatch] at h
      cases h1 : firstMatch r1 s with
      | some a =>
          rw [h1] at h; simp at h; subst h
          have m1 := ih1 s a h1
          simp only [Regex.match?] at m1 ⊢
          cases hl1 : r1.run s with
          | nil => rw [hl1] at m1; simp at m1
          | cons a0 t1 =>
              rw [hl1] at m1; simp at m1
              simp [Regex.run, hl1, m1]
      | none =>
          rw [h1] at h
          simp only at h
          split at h
          · next he =>
              have hnil : r1.run s = [] := by
                cases hl : r1.run s with
                | nil => rfl
                | cons a t => rw [hl] at he; simp at he
              have m2 := ih2 s x h
              simp only [Regex.match?] at m2 ⊢
              simp [Regex.run, hnil, m2]
          · simp at h
  | group n r ih =>
      intro s x h
      simp only [firstMatch] at h
      cases hf : firstMatch r s with
      | none => rw [hf] at h; simp at h
      | some y =>
          rw [hf] at h; simp at h; subst h
          have m := ih s y hf
          simp only [Regex.match?] at m ⊢
          cases hl : r.run s with
          | nil => rw [hl] at m; simp at m
          | cons a t =>
              rw [hl] at m; simp at m
              simp [Regex.run, hl, m]

/-- `takeWhile` on a run of satisfying characters followed by a failing one. -/
theorem takeWhile_run {p : Char → Bool} :
    ∀ (l : List Char) (b : Char) (t : List Char), (∀ a ∈ l, p a = true) →
      p b = false → (l ++ b :: t).takeWhile p = l := by
  intro l b t h hb
  induction l with
  | nil => simp [List.takeWhile, hb]
  | cons c cs ih =>
      simp only [List.cons_append, List.takeWhile]
      rw [h c (by simp)]
      simp only [List.cons.injEq, true_and]
      exact ih (fun a ha => h a (by simp [ha]))

/-- `dropWhile` on a run of satisfying characters followed by a failing one. -/
theorem dropWhile_run {p : Char → Bool} :
    ∀ (l : List Char) (b : Char) (t : List Char), (∀ a ∈ l, p a = true) →
      p b = false → (l ++ b :: t).dropWhile p = b :: t := by
  intro l b t h hb
  induction l with
  | nil => simp [List.dropWhile, hb]
  | cons c cs ih =>
      simp only [List.cons_append, List.dropWhile]
      rw [h c (by simp)]
      exact ih (fun a ha => h a (by simp [ha]))

/-! ## Character class facts -/
/-- Unfold a `contains` fact into membership. -/
theorem mem_of_containsC {l : List Char} {c : Char} (h : l.contains c = true) :
    c ∈ l := by simpa using h

/-- Two characters differ when one is in a class and the other is not. -/
theorem ne_of_class {l : List Char} {c χ : Char} (h : l.contains c = true)
    (hχ : l.contains χ = false) : c ≠ χ := by
  intro he
  subst he
  rw [h] at hχ
  cases hχ

/-- Decimal digits are not Python whitespace. -/
theorem isSpaceC_of_digit {c : Char} (h : isDigitC c = true) : isSpaceC c = false := by
  have hm := mem_of_containsC (l := ['0','1','2','3','4','5','6','7','8','9']) h
  fin_cases hm <;> decide

/-- Decimal digits are not newlines. -/
theorem notNL_of_digit {c : Char} (h : isDigitC c = true) : notNL c = true := by
  have hm := mem_of_containsC (l := ['0','1','2','3','4','5','6','7','8','9']) h
  fin_cases hm <;> decide

/-- Nonzero digits are digits. -/
theorem isDigitC_of_nz {c : Char} (h : isNzDigit c = true) : isDigitC c = true := by
  have hm := mem_of_containsC (l := ['1','2','3','4','5','6','7','8','9']) h
  fin_cases hm <;> decide

/-- Nonzero digits are not Python whitespace. -/
theorem isSpaceC_of_nz {c : Char} (h : isNzDigit c = true) : isSpaceC c = false :=
  isSpaceC_of_digit (isDigitC_of_nz h)

/-- Nonzero digits are not newlines. -/
theorem notNL_of_nz {c : Char} (h : isNzDigit c = true) : notNL c = true :=
  notNL_of_digit (isDigitC_of_nz h)

/-- `PRESF_RECORD_MATCHER.match` extracts exactly the first
newline-terminated line, whatever follows it. -/
theorem presf_match (pre rest : List Char) (h : ∀ c ∈ pre, notNL c = true) :
    presfRecordRe.match? (pre ++ '\n' :: rest) = some (pre ++ ['\n'], rest, []) := by
  apply firstMatch_sound
  have ht := takeWhile_run (p := notNL) pre '\n' rest h (by decide)
  have hd := dropWhile_run (p := notNL) pre '\n' rest h (by decide)
  simp [firstMatch, presfRecordRe, cats, anyChars, newLine, ht, hd, litTake, Regex.run]

/-! ## Evaluation helpers for the greedy path

Concrete lines are evaluated by `decide`; to reason about a concrete line
followed by arbitrary further input we prove that a greedy-path result with
a nonempty remainder is stable under extending the input (`fm_extend`), for
the alternation-free fragment the line bodies use (`ExtOk`). -/
/-- A literal matches itself at the front of any input. -/
theorem litTake_self : ∀ (l rest : List Char), litTake l (l ++ rest) = some rest := by
  intro l rest
  induction l with
  | nil => rfl
  | cons c cs ih => simp [litTake, ih]

/-- Counted repetition consumes exactly a satisfying run of its length. -/
theorem repTake_run {p : Char → Bool} :
    ∀ (l rest : List Char), (∀ a ∈ l, p a = true) →
      repTake p l.length (l ++ rest) = some (l, rest) := by
  intro l
  induction l with
  | nil => intro rest _; rfl
  | cons c cs ih =>
      intro rest h
      simp only [List.length_cons, List.cons_append, repTake]
      rw [h c (by simp)]
      simp [ih rest (fun a ha => h a (by simp [ha]))]

/-- What a successful counted repetition consumed. -/
theorem repTake_sound {p : Char → Bool} :
    ∀ n s x, repTake p n s = some x →
      (∀ a ∈ x.1, p a = true) ∧ x.1.length = n := by
  intro n
  induction n with
  | zero => intro s x h; simp [repTake] at h; simp [← h]
  | succ n ih =>
      intro s x h
      cases s with
      | nil => simp [repTake] at h
      | cons c cs =>
          simp only [repTake] at h
          split at h
          · next hc =>
              cases hx : repTake p n cs with
              | none => rw [hx] at h; simp at h
              | some y =>
                  rw [hx] at h
                  simp only [Option.map_some', Option.some.injEq] at h
                  subst h
                  rcases ih cs y hx with ⟨hall, hlen⟩
                  refine ⟨?_, by simp [hlen]⟩
                  intro a ha
                  rcases List.mem_cons.1 ha with rfl | ha
                  · exact hc
                  · exact hall a ha
          · simp at h

/-- The head of a `dropWhile` fails the predicate. -/
theorem dropWhile_head_false {p : Char → Bool} :
    ∀ (s : List Char) (b : Char) (r : List Char),
      List.dropWhile p s = b :: r → p b = false := by
  intro s
  induction s with
  | nil => intro b r h; simp [List.dropWhile] at h
  | cons c cs ih =>
      intro b r h
      simp only [List.dropWhile] at h
      cases hc : p c with
      | true => rw [hc] at h; exact ih b r h
      | false =>
          rw [hc] at h
          simp at h
          rw [← h.1]
          exact hc

/-- Combine two greedy-path component results across a concatenation. -/
theorem fm_cat {r1 r2 : Regex} {s : List Char} {x y : MatchRes}
    (h1 : firstMatch r1 s = some x) (h2 : firstMatch r2 x.2.1 = some y) :
    firstMatch (r1.cat r2) s = some (x.1 ++ y.1, y.2.1, x.2.2 ++ y.2.2) := by
  simp [firstMatch, h1, h2]

/-- Greedy path through a numbered group. -/
theorem fm_group {n : Nat} {r : Regex} {s : List Char} {x : MatchRes}
    (h : firstMatch r s = some x) :
    firstMatch (.group n r) s = some (x.1, x.2.1, x.2.2 ++ [(n, x.1)]) := by
  simp [firstMatch, h]

/-- The empty concatenation consumes nothing. -/
theorem fm_cats_nil (s : List Char) : firstMatch (cats []) s = some ([], s, []) := by
  simp [cats, firstMatch, litTake]

/-- Splitting a concatenation list for the greedy path. -/
theorem fm_cats_append : ∀ (xs ys : List Regex) (s : List Char),
    firstMatch (cats (xs ++ ys)) s =
      (firstMatch (cats xs) s).bind (fun x =>
        (firstMatch (cats ys) x.2.1).map (fun y =>
          (x.1 ++ y.1, y.2.1, x.2.2 ++ y.2.2))) := by
  intro xs
  induction xs with
  | nil =>
      intro ys s
      rw [fm_cats_nil]
      simp only [List.nil_append, Option.some_bind]
      cases h : firstMatch (cats ys) s with
      | none => simp
      | some y => simp
  | cons r rs ih =>
      intro ys s
      show firstMatch (Regex.cat r (cats (rs ++ ys))) s =
        (firstMatch (Regex.cat r (cats rs)) s).bind (fun x =>
          (firstMatch (cats ys) x.2.1).map (fun y =>
            (x.1 ++ y.1, y.2.1, x.2.2 ++ y.2.2)))
      simp only [firstMatch]
      cases h1 : firstMatch r s with
      | none => simp
      | some a =>
          simp only [Option.some_bind]
          rw [ih ys a.2.1]
          cases h2 : firstMatch (cats rs) a.2.1 with
          | none => simp
          | some b =>
              simp only [Option.some_bind, Option.map_some']
              cases h3 : firstMatch (cats ys) b.2.1 with
              | none => simp
              | some c => simp [List.append_assoc]

/-- In the `ExtOk` fragment, `?` only wraps one-character literals. -/
theorem extOk_opt : ∀ {r : Regex}, ExtOk (.opt r) = true → ∃ c, r = .lit [c] := by
  intro r h
  cases r with
  | lit l =>
      cases l with
      | nil => simp [ExtOk] at h
      | cons c cs =>
          cases cs with
          | nil => exact ⟨c, rfl⟩
          | cons d ds => simp [ExtOk] at h
  | cls p => simp [ExtOk] at h
  | rep p n => simp [ExtOk] at h
  | star p => simp [ExtOk] at h
  | opt r => simp [ExtOk] at h
  | cat a b => simp [ExtOk] at h
  | alt a b => simp [ExtOk] at h
  | group n a => simp [ExtOk] at h

/-- A greedy-path result with a nonempty remainder is stable under
extending the input, for the `ExtOk` fragment. -/
theorem fm_extend : ∀ (r : Regex), ExtOk r = true →
    ∀ (s m : List Char) (b : Char) (r0 : List Char) (caps : Caps) (t : List Char),
      firstMatch r s = some (m, b :: r0, caps) →
      firstMatch r (s ++ t) = some (m, b :: (r0 ++ t), caps) := by
  intro r
  induction r with
  | lit l =>
      intro _ s m b r0 caps t h
      simp only [firstMatch] at h ⊢
      cases hl : litTake l s with
      | none => rw [hl] at h; simp at h
      | some rest =>
          rw [hl] at h
          simp only [Option.map_some', Option.some.injEq, Prod.mk.injEq] at h
          rcases h with ⟨rfl, h2, rfl⟩
          subst h2
          have hsplit := litTake_split l s _ hl
          rw [hsplit, List.append_assoc, litTake_self]
          simp
  | cls p =>
      intro _ s m b r0 caps t h
      cases s with
      | nil => simp [firstMatch] at h
      | cons c cs =>
          simp only [firstMatch] at h ⊢
          split at h
          · simp only [Option.some.injEq, Prod.mk.injEq] at h
            rcases h with ⟨rfl, h2, rfl⟩
            subst h2
            simp_all
          · simp at h
  | rep p n =>
      intro _ s m b r0 caps t h
      simp only [firstMatch] at h ⊢
      cases hr : repTake p n s with
      | none => rw [hr] at h; simp at h
      | some x =>
          obtain ⟨mx, restx⟩ := x
          rw [hr] at h
          simp only [Option.map_some', Option.some.injEq, Prod.mk.injEq] at h
          rcases h with ⟨rfl, h2, rfl⟩
          subst h2
          rcases repTake_sound n s _ hr with ⟨hall, hlen⟩
          have hsplit := repTake_split p n s _ hr
          simp only at hsplit hall hlen
          rw [hsplit, List.append_assoc, List.cons_append]
          rw [← hlen, repTake_run _ (b :: (r0 ++ t)) hall]
          simp
  | star p =>
      intro _ s m b r0 caps t h
      simp only [firstMatch, Option.some.injEq, Prod.mk.injEq] at h ⊢
      rcases h with ⟨rfl, h2, rfl⟩
      have hall : ∀ a ∈ s.takeWhile p, p a = true := fun a ha => List.mem_takeWhile_imp ha
      have hb : p b = false := dropWhile_head_false s b r0 h2
      have hsplit : s = s.takeWhile p ++ b :: r0 := by
        conv_lhs => rw [← List.takeWhile_append_dropWhile (p := p) (l := s)]
        rw [h2]
      have htw : List.takeWhile p (s ++ t) = List.takeWhile p s := by
        conv_lhs => rw [hsplit, List.append_assoc, List.cons_append,
          takeWhile_run _ b (r0 ++ t) hall hb]
      have hdw : List.dropWhile p (s ++ t) = b :: (r0 ++ t) := by
        conv_lhs => rw [hsplit, List.append_assoc, List.cons_append,
          dropWhile_run _ b (r0 ++ t) hall hb]
      simp [htw, hdw]
  | opt r ih =>
      intro hok s m b r0 caps t h
      rcases extOk_opt hok with ⟨c0, rfl⟩
      simp only [firstMatch] at h ⊢
      cases hf : litTake [c0] s with
      | some rest =>
          rw [hf] at h
          simp only [Option.map_some', Option.some.injEq, Prod.mk.injEq] at h
          rcases h with ⟨rfl, h2, rfl⟩
          subst h2
          have hsplit := litTake_split [c0] s _ hf
          rw [hsplit, List.append_assoc, litTake_self]
          simp
      | none =>
          rw [hf] at h
          simp only [Option.map_none'] at h
          split at h
          · next he =>
              simp only [Option.some.injEq, Prod.mk.injEq] at h
              rcases h with ⟨rfl, h2, rfl⟩
              subst h2
              have hne : ¬ (b = c0) := by
                intro hbe
                subst hbe
                simp [litTake] at hf
              simp only [List.cons_append]
              have hlt : litTake [c0] (b :: (r0 ++ t)) = none := by
                simp [litTake, hne]
              rw [hlt]
              simp [Regex.run, hlt]
          · simp at h
  | cat r1 r2 ih1 ih2 =>
      intro hok s m b r0 caps t h
      simp only [ExtOk, Bool.and_eq_true] at hok
      simp only [firstMatch] at h ⊢
      cases h1 : firstMatch r1 s with
      | none => rw [h1] at h; simp at h
      | some a =>
          obtain ⟨m1, rest1, caps1⟩ := a
          rw [h1] at h
          simp only [Option.some_bind] at h
          cases h2 : firstMatch r2 rest1 with
          | none => rw [h2] at h; simp at h
          | some y =>
              obtain ⟨m2, rest2, caps2⟩ := y
              rw [h2] at h
              simp only [Option.map_some', Option.some.injEq, Prod.mk.injEq] at h
              rcases h with ⟨rfl, hrest, rfl⟩
              subst hrest
              have hsp : rest1 = m2 ++ (b :: r0) :=
                run_split r2 rest1 _ (match?_mem (firstMatch_sound r2 rest1 _ h2))
              cases hr1 : rest1 with
              | nil => rw [hr1] at hsp; exact absurd hsp.symm (by simp)
              | cons b' r0' =>
                  subst hr1
                  have e1 := ih1 hok.1 s m1 b' r0' caps1 t h1
                  have e2 := ih2 hok.2 (b' :: r0') m2 b r0 caps2 t h2
                  rw [e1]
                  simp only [Option.some_bind]
                  have hbt : b' :: (r0' ++ t) = (b' :: r0') ++ t := by simp
                  rw [hbt, e2]
                  simp
  | alt r1 r2 ih1 ih2 =>
      intro hok
      simp [ExtOk] at hok
  | group n r ih =>
      intro hok s m b r0 caps t h
      simp only [firstMatch] at h ⊢
      cases hf : firstMatch r s with
      | none => rw [hf] at h; simp at h
      | some x =>
          obtain ⟨m1, rest1, caps1⟩ := x
          rw [hf] at h
          simp only [Option.map_some', Option.some.injEq, Prod.mk.injEq] at h
          rcases h with ⟨rfl, h2, hcaps⟩
          subst h2
          rw [ih (by simpa [ExtOk] using hok) s m1 b r0 caps1 t hf]
          simp [hcaps]

/-- `lookup` skips an alist whose keys miss `k`. -/
theorem lookup_append_of_none {l1 l2 : Caps} {k : Nat} (h : l1.lookup k = none) :
    (l1 ++ l2).lookup k = l2.lookup k := by
  induction l1 with
  | nil => rfl
  | cons a t ih =>
      obtain ⟨ka, va⟩ := a
      simp only [List.lookup, List.cons_append] at h ⊢
      cases hk : (k == ka) with
      | true => rw [hk] at h; simp at h
      | false => rw [hk] at h; exact ih h

/-- A matcher of the line-grammar shape `body ++ NEW_LINE` matches a
newline-terminated line, given the greedy-path evaluation of its body on
the line alone. -/
theorem fm_line {body : List Regex} {pre : List Char} {caps : Caps} (rest : List Char)
    (hext : ExtOk (cats body) = true)
    (hclosed : firstMatch (cats body) (pre ++ ['\n']) = some (pre, ['\n'], caps)) :
    (cats (body ++ [newLine])).match? (pre ++ '\n' :: rest) =
      some (pre ++ ['\n'], rest, caps) := by
  apply firstMatch_sound
  rw [fm_cats_append body [newLine]]
  have hb : firstMatch (cats body) (pre ++ '\n' :: rest) =
      some (pre, '\n' :: rest, caps) := by
    have := fm_extend (cats body) hext (pre ++ ['\n']) pre '\n' [] caps rest hclosed
    simpa [List.append_assoc] using this
  rw [hb]
  simp only [Option.some_bind]
  have hnl : firstMatch (cats [newLine]) ('\n' :: rest) = some (['\n'], rest, []) := by
    simp [cats, firstMatch, newLine, litTake, Regex.run]
  rw [hnl]
  simp

/-- Greedy-path evaluation of the `FLOAT` pattern on a
digits-dot-digits value followed by a newline. -/
theorem fm_float {c : Char} {ds1 ds2 : List Char} (n : Nat)
    (hc : isNzDigit c = true) (h1 : ∀ a ∈ ds1, isDigitC a = true)
    (h2 : ∀ a ∈ ds2, isDigitC a = true) :
    firstMatch (floatRe n) (c :: (ds1 ++ '.' :: (ds2 ++ ['\n']))) =
      some (c :: (ds1 ++ '.' :: ds2), ['\n'], [(n, c :: (ds1 ++ '.' :: ds2))]) := by
  have hcls : firstMatch (.cls isNzDigit) (c :: (ds1 ++ '.' :: (ds2 ++ ['\n']))) =
      some ([c], ds1 ++ '.' :: (ds2 ++ ['\n']), []) := by
    simp [firstMatch, hc]
  have hstar1 : firstMatch (.star isDigitC) (ds1 ++ '.' :: (ds2 ++ ['\n'])) =
      some (ds1, '.' :: (ds2 ++ ['\n']), []) := by
    simp [firstMatch, takeWhile_run ds1 '.' _ h1 (by decide),
      dropWhile_run ds1 '.' _ h1 (by decide)]
  have hopt : firstMatch (.opt (.lit ['.'])) ('.' :: (ds2 ++ ['\n'])) =
      some (['.'], ds2 ++ ['\n'], []) := by
    simp [firstMatch, litTake]
  have hstar2 : firstMatch (.star isDigitC) (ds2 ++ ['\n']) =
      some (ds2, ['\n'], []) := by
    simp [firstMatch, takeWhile_run ds2 '\n' [] h2 (by decide),
      dropWhile_run ds2 '\n' [] h2 (by decide)]
  have hend : firstMatch (Regex.lit []) ['\n'] = some ([], ['\n'], []) := rfl
  have main := fm_group (n := n)
    (fm_cat hcls (fm_cat hstar1 (fm_cat hopt (fm_cat hstar2 hend))))
  simpa [floatRe, cats] using main

/-- No character of a continuation line is `[`, `t` or `w` (the characters
the metadata, tide, wave-start and wave-ptfreq grammars require). -/
theorem contL_not_mem {χ : Char} {v : List Char} (hv : ContVal v)
    (hts : χ ∉ tsC) (h1 : χ ≠ ' ') (h2 : χ ≠ '.') (h3 : χ ≠ '\n')
    (hd : isDigitC χ = false) : χ ∉ contL v := by
  obtain ⟨c, ds1, ds2, hc, hd1, hd2, rfl⟩ := hv
  intro hmem
  have hsplit : χ = ' ' ∨ χ = c ∨ χ ∈ ds1 ∨ χ = '.' ∨ χ ∈ ds2 ∨ χ = '\n' ∨ χ ∈ tsC := by
    simp only [contL, contPre, List.mem_append, List.mem_cons, List.mem_singleton,
      List.mem_nil_iff] at hmem
    tauto
  rcases hsplit with rfl | rfl | hm | rfl | hm | rfl | hm
  · exact h1 rfl
  · rw [isDigitC_of_nz hc] at hd; simp at hd
  · rw [hd1 χ hm] at hd; simp at hd
  · exact h2 rfl
  · rw [hd2 χ hm] at hd; simp at hd
  · exact h3 rfl
  · exact hts hm

/-- A continuation line does not match the metadata grammar. -/
theorem metadata_no_cont {v : List Char} (hv : ContVal v) :
    metadataRe.match? (contL v) = none := by
  apply match?_eq_none
  apply run_eq_nil_of_requiresChar (χ := '[')
  · decide
  · exact contL_not_mem hv (by decide) (by decide) (by decide) (by decide) (by decide)

/-- A continuation line does not match the tide grammar. -/
theorem tide_no_cont {v : List Char} (hv : ContVal v) :
    tideRe.match? (contL v) = none := by
  apply match?_eq_none
  apply run_eq_nil_of_requiresChar (χ := 't')
  · decide
  · exact contL_not_mem hv (by decide) (by decide) (by decide) (by decide) (by decide)

/-- A continuation line does not match the wave-start grammar. -/
theorem wstart_no_cont {v : List Char} (hv : ContVal v) :
    waveStartRe.match? (contL v) = none := by
  apply match?_eq_none
  apply run_eq_nil_of_requiresChar (χ := 'w')
  · decide
  · exact contL_not_mem hv (by decide) (by decide) (by decide) (by decide) (by decide)

/-- A continuation line does not match the wave-ptfreq grammar. -/
theorem wptfreq_no_cont {v : List Char} (hv : ContVal v) :
    wavePtfreqRe.match? (contL v) = none := by
  apply match?_eq_none
  apply run_eq_nil_of_requiresChar (χ := 'w')
  · decide
  · exact contL_not_mem hv (by decide) (by decide) (by decide) (by decide) (by decide)

/-- A continuation line matches the wave-continuation grammar: the match
consumes the whole line and group 10 captures the sample value. -/
theorem waveCont_match {v : List Char} (hv : ContVal v) :
    ∃ caps, waveContRe.match? (contL v) = some (contL v, [], caps) ∧
      caps.lookup 10 = some v := by
  obtain ⟨c, ds1, ds2, hc, h1, h2, hveq⟩ := hv
  obtain ⟨tsCaps, hts⟩ :
      ∃ cs, firstMatch timestampRe (tsC ++ [' ']) = some (tsC, [' '], cs) :=
    ⟨_, by rfl⟩
  have hlk10 : tsCaps.lookup 10 = none := by
    have hproj : (firstMatch timestampRe (tsC ++ [' '])).map
        (fun x => x.2.2.lookup 10) = some none := by decide
    rw [hts] at hproj
    simpa using hproj
  have hts2 := fm_extend timestampRe (by decide) (tsC ++ [' ']) tsC ' ' [] tsCaps
    (v ++ ['\n']) hts
  have hts3 : firstMatch timestampRe (tsC ++ (' ' :: (v ++ ['\n']))) =
      some (tsC, ' ' :: (v ++ ['\n']), tsCaps) := by
    simpa [List.append_assoc] using hts2
  have hws : firstMatch (wsRe 9) (' ' :: (v ++ ['\n'])) =
      some ([' '], v ++ ['\n'], [(9, [' '])]) := by
    rw [hveq]
    simp [wsRe, firstMatch, List.takeWhile, List.dropWhile, isSpaceC_of_nz hc,
      (by decide : isSpaceC ' ' = true)]
  have hfl : firstMatch (floatRe 10) (v ++ ['\n']) = some (v, ['\n'], [(10, v)]) := by
    rw [hveq]
    have := @fm_float c ds1 ds2 10 hc h1 h2
    simpa [List.append_assoc] using this
  have hend : firstMatch (Regex.lit []) ['\n'] = some ([], ['\n'], []) := rfl
  have hbody0 := fm_cat hts3 (fm_cat hws (fm_cat hfl hend))
  have hbody : firstMatch (cats [timestampRe, wsRe 9, floatRe 10])
      (contPre v ++ ['\n']) =
      some (contPre v, ['\n'], tsCaps ++ ([(9, [' '])] ++ ([(10, v)] ++ []))) := by
    show firstMatch (timestampRe.cat ((wsRe 9).cat ((floatRe 10).cat (Regex.lit []))))
      (contPre v ++ ['\n']) = _
    simpa [contPre, List.append_assoc] using hbody0
  have hfull := @fm_line [timestampRe, wsRe 9, floatRe 10]
    (contPre v) _ [] (by decide) hbody
  refine ⟨tsCaps ++ ([(9, [' '])] ++ ([(10, v)] ++ [])), ?_, ?_⟩
  · show (cats ([timestampRe, wsRe 9, floatRe 10] ++ [newLine])).match? (contL v) = _
    have heq : contL v = contPre v ++ ['\n'] := rfl
    rw [heq]
    exact hfull
  · rw [lookup_append_of_none hlk10]
    simp [List.lookup]

/-- The wave-start grammar matches the start line at the head of any input
that continues after it. -/
theorem waveStart_raw_match (rest : List Char) :
    waveStartRe.match? (wstartPre ++ '\n' :: rest) =
      some (wstartL, rest, wstartCaps) := by
  have hcl : firstMatch (cats [timestampRe, wsRe 9, .lit "wave:".toList, wsRe 10,
      .lit "start time =".toList, wsRe 11, dateTimeStrRe 12])
      (wstartPre ++ ['\n']) = some (wstartPre, ['\n'], wstartCaps) := by decide
  exact @fm_line [timestampRe, wsRe 9, .lit "wave:".toList, wsRe 10,
    .lit "start time =".toList, wsRe 11, dateTimeStrRe 12] wstartPre wstartCaps
    rest (by decide) hcl

/-! ## Step lemmas for the sieve loop -/
/-- No complete line left: the loop breaks and returns the empty list. -/
theorem sieve_step_break {fuel : Nat} {rem : List Char} {d : Nat} {st : WaveState}
    {w : Nat} (hp : presfRecordRe.match? rem = none) :
    sieveLoopF (fuel + 1) rem d st w = .ok [] := by
  simp only [sieveLoopF, hp]

/-- A metadata line is skipped without emitting a range. -/
theorem sieve_step_meta {fuel : Nat} {rem line r0 m r1 : List Char} {c0 c1 : Caps}
    {d : Nat} {st : WaveState} {w : Nat}
    (hp : presfRecordRe.match? rem = some (line, r0, c0))
    (hm : metadataRe.match? line = some (m, r1, c1)) :
    sieveLoopF (fuel + 1) rem d st w =
      sieveLoopF fuel (rem.drop m.length) (d + m.length) st w := by
  simp only [sieveLoopF, hp, hm]

/-- A tide line emits its own range and continues. -/
theorem sieve_step_tide {fuel : Nat} {rem line r0 m r1 : List Char} {c0 c1 : Caps}
    {d : Nat} {st : WaveState} {w : Nat}
    (hp : presfRecordRe.match? rem = some (line, r0, c0))
    (hm : metadataRe.match? line = none)
    (ht : tideRe.match? line = some (m, r1, c1)) :
    sieveLoopF (fuel + 1) rem d st w =
      (sieveLoopF fuel (rem.drop m.length) (d + m.length) st w).map
        (fun l => (d, d + m.length) :: l) := by
  simp only [sieveLoopF, hp, hm, ht]

/-- A wave-start line in the idle state opens a burst. -/
theorem sieve_step_wstart {fuel : Nat} {rem line r0 m r1 : List Char} {c0 c1 : Caps}
    {d : Nat} {w : Nat}
    (hp : presfRecordRe.match? rem = some (line, r0, c0))
    (hm : metadataRe.match? line = none)
    (ht : tideRe.match? line = none)
    (hw : waveStartRe.match? line = some (m, r1, c1)) :
    sieveLoopF (fuel + 1) rem d WaveState.notInProcess w =
      sieveLoopF fuel (rem.drop m.length) (d + m.length) WaveState.started d := by
  simp only [sieveLoopF, hp, hm, ht, hw]
  rw [if_neg (by simp)]

/-- A wave-start line in any busy state raises. -/
theorem sieve_step_wstart_err {fuel : Nat} {rem line r0 m r1 : List Char}
    {c0 c1 : Caps} {d : Nat} {st : WaveState} {w : Nat}
    (hp : presfRecordRe.match? rem = some (line, r0, c0))
    (hm : metadataRe.match? line = none)
    (ht : tideRe.match? line = none)
    (hw : waveStartRe.match? line = some (m, r1, c1))
    (hst : st ≠ WaveState.notInProcess) :
    sieveLoopF (fuel + 1) rem d st w = .error .recoverableSample := by
  simp only [sieveLoopF, hp, hm, ht, hw]
  rw [if_pos hst]

/-- A ptfreq line in the started state advances the state machine. -/
theorem sieve_step_ptfreq {fuel : Nat} {rem line r0 m r1 : List Char} {c0 c1 : Caps}
    {d : Nat} {w : Nat}
    (hp : presfRecordRe.match? rem = some (line, r0, c0))
    (hm : metadataRe.match? line = none)
    (ht : tideRe.match? line = none)
    (hw : waveStartRe.match? line = none)
    (hf : wavePtfreqRe.match? line = some (m, r1, c1)) :
    sieveLoopF (fuel + 1) rem d WaveState.started w =
      sieveLoopF fuel (rem.drop m.length) (d + m.length) WaveState.ptfreq w := by
  simp only [sieveLoopF, hp, hm, ht, hw, hf]
  rw [if_neg (by simp)]

/-- A ptfreq line in any other state raises. -/
theorem sieve_step_ptfreq_err {fuel : Nat} {rem line r0 m r1 : List Char}
    {c0 c1 : Caps} {d : Nat} {st : WaveState} {w : Nat}
    (hp : presfRecordRe.match? rem = some (line, r0, c0))
    (hm : metadataRe.match? line = none)
    (ht : tideRe.match? line = none)
    (hw : waveStartRe.match? line = none)
    (hf : wavePtfreqRe.match? line = some (m, r1, c1))
    (hst : st ≠ WaveState.started) :
    sieveLoopF (fuel + 1) rem d st w = .error .recoverableSample := by
  simp only [sieveLoopF, hp, hm, ht, hw, hf]
  rw [if_pos hst]

/-- A continuation line after ptfreq or another continuation accumulates. -/
theorem sieve_step_cont {fuel : Nat} {rem line r0 m r1 : List Char} {c0 c1 : Caps}
    {d : Nat} {st : WaveState} {w : Nat}
    (hp : presfRecordRe.match? rem = some (line, r0, c0))
    (hm : metadataRe.match? line = none)
    (ht : tideRe.match? line = none)
    (hw : waveStartRe.match? line = none)
    (hf : wavePtfreqRe.match? line = none)
    (hc : waveContRe.match? line = some (m, r1, c1))
    (hst : st = WaveState.ptfreq ∨ st = WaveState.cont) :
    sieveLoopF (fuel + 1) rem d st w =
      sieveLoopF fuel (rem.drop m.length) (d + m.length) WaveState.cont w := by
  simp only [sieveLoopF, hp, hm, ht, hw, hf, hc]
  rw [if_neg (by rcases hst with rfl | rfl <;> simp)]

/-- A continuation line in any other state raises. -/
theorem sieve_step_cont_err {fuel : Nat} {rem line r0 m r1 : List Char}
    {c0 c1 : Caps} {d : Nat} {st : WaveState} {w : Nat}
    (hp : presfRecordRe.match? rem = some (line, r0, c0))
    (hm : metadataRe.match? line = none)
    (ht : tideRe.match? line = none)
    (hw : waveStartRe.match? line = none)
    (hf : wavePtfreqRe.match? line = none)
    (hc : waveContRe.match? line = some (m, r1, c1))
    (hst : st ≠ WaveState.ptfreq ∧ st ≠ WaveState.cont) :
    sieveLoopF (fuel + 1) rem d st w = .error .recoverableSample := by
  simp only [sieveLoopF, hp, hm, ht, hw, hf, hc]
  rw [if_pos hst]

/-- A burst-end line after at least one continuation emits the burst range. -/
theorem sieve_step_wend {fuel : Nat} {rem line r0 m r1 : List Char} {c0 c1 : Caps}
    {d : Nat} {w : Nat}
    (hp : presfRecordRe.match? rem = some (line, r0, c0))
    (hm : metadataRe.match? line = none)
    (ht : tideRe.match? line = none)
    (hw : waveStartRe.match? line = none)
    (hf : wavePtfreqRe.match? line = none)
    (hc : waveContRe.match? line = none)
    (he : waveEndRe.match? line = some (m, r1, c1)) :
    sieveLoopF (fuel + 1) rem d WaveState.cont w =
      (sieveLoopF fuel (rem.drop m.length) (d + m.length)
        WaveState.notInProcess w).map (fun l => (w, d + m.length) :: l) := by
  simp only [sieveLoopF, hp, hm, ht, hw, hf, hc, he]
  rw [if_neg (by simp)]

/-- A burst-end line in any other state raises. -/
theorem sieve_step_wend_err {fuel : Nat} {rem line r0 m r1 : List Char}
    {c0 c1 : Caps} {d : Nat} {st : WaveState} {w : Nat}
    (hp : presfRecordRe.match? rem = some (line, r0, c0))
    (hm : metadataRe.match? line = none)
    (ht : tideRe.match? line = none)
    (hw : waveStartRe.match? line = none)
    (hf : wavePtfreqRe.match? line = none)
    (hc : waveContRe.match? line = none)
    (he : waveEndRe.match? line = some (m, r1, c1))
    (hst : st ≠ WaveState.cont) :
    sieveLoopF (fuel + 1) rem d st w = .error .recoverableSample := by
  simp only [sieveLoopF, hp, hm, ht, hw, hf, hc, he]
  rw [if_pos hst]

/-- A complete line matching none of the six grammars raises. -/
theorem sieve_step_unmatched {fuel : Nat} {rem line r0 : List Char} {c0 : Caps}
    {d : Nat} {st : WaveState} {w : Nat}
    (hp : presfRecordRe.match? rem = some (line, r0, c0))
    (hm : metadataRe.match? line = none)
    (ht : tideRe.match? line = none)
    (hw : waveStartRe.match? line = none)
    (hf : wavePtfreqRe.match? line = none)
    (hc : waveContRe.match? line = none)
    (he : waveEndRe.match? line = none) :
    sieveLoopF (fuel + 1) rem d st w = .error .recoverableSample := by
  simp only [sieveLoopF, hp, hm, ht, hw, hf, hc, he]

/-! ## Step lemmas for the wave particle build loop -/
/-- Input exhausted with every local assigned: the record is built. -/
theorem build_step_done {fuel : Nat} {raw : List Char} {a b c d : List Char}
    {burst : List (List Char)} :
    buildLoopF (fuel + 1) raw [] (some a) (some c) (some d) (some b) burst =
      .ok { dclControllerStartTimestamp := a, dclControllerEndTimestamp := b,
            dateTimeString := c, ptempFrequency := d,
            absolutePressureBurst := burst } := rfl

/-- A wave-start line: re-match the whole raw data and take its captures. -/
theorem build_step_wstart {fuel : Nat} {raw rem line r0 m r1 mr rr g1 g12 : List Char}
    {c0 c1 capsr : Caps} {sTs dts pt eTs : Option (List Char)}
    {burst : List (List Char)}
    (hne : rem.isEmpty = false)
    (hp : presfRecordRe.match? rem = some (line, r0, c0))
    (hw : waveStartRe.match? line = some (m, r1, c1))
    (hraw : waveStartRe.match? raw = some (mr, rr, capsr))
    (hg1 : capsr.lookup 1 = some g1) (hg12 : capsr.lookup 12 = some g12) :
    buildLoopF (fuel + 1) raw rem sTs dts pt eTs burst =
      buildLoopF fuel raw (rem.drop m.length) (some g1) (some g12) pt eTs burst := by
  simp only [buildLoopF, hne, Bool.false_eq_true, if_false, hp, hw, hraw, hg1, hg12]

/-- A ptfreq line: record the captured frequency. -/
theorem build_step_ptfreq {fuel : Nat} {raw rem line r0 m r1 g : List Char}
    {c0 c1 : Caps} {sTs dts pt eTs : Option (List Char)} {burst : List (List Char)}
    (hne : rem.isEmpty = false)
    (hp : presfRecordRe.match? rem = some (line, r0, c0))
    (hw : waveStartRe.match? line = none)
    (hf : wavePtfreqRe.match? line = some (m, r1, c1))
    (hg : c1.lookup 12 = some g) :
    buildLoopF (fuel + 1) raw rem sTs dts pt eTs burst =
      buildLoopF fuel raw (rem.drop m.length) sTs dts (some g) eTs burst := by
  simp only [buildLoopF, hne, Bool.false_eq_true, if_false, hp, hw, hf, hg]

/-- A continuation line: append the captured sample to the burst. -/
theorem build_step_cont {fuel : Nat} {raw rem line r0 m r1 g : List Char}
    {c0 c1 : Caps} {sTs dts pt eTs : Option (List Char)} {burst : List (List Char)}
    (hne : rem.isEmpty = false)
    (hp : presfRecordRe.match? rem = some (line, r0, c0))
    (hw : waveStartRe.match? line = none)
    (hf : wavePtfreqRe.match? line = none)
    (hc : waveContRe.match? line = some (m, r1, c1))
    (hg : c1.lookup 10 = some g) :
    buildLoopF (fuel + 1) raw rem sTs dts pt eTs burst =
      buildLoopF fuel raw (rem.drop m.length) sTs dts pt eTs (burst ++ [g]) := by
  simp only [buildLoopF, hne, Bool.false_eq_true, if_false, hp, hw, hf, hc, hg]

/-- A burst-end line: record the captured end timestamp. -/
theorem build_step_wend {fuel : Nat} {raw rem line r0 m r1 g : List Char}
    {c0 c1 : Caps} {sTs dts pt eTs : Option (List Char)} {burst : List (List Char)}
    (hne : rem.isEmpty = false)
    (hp : presfRecordRe.match? rem = some (line, r0, c0))
    (hw : waveStartRe.match? line = none)
    (hf : wavePtfreqRe.match? line = none)
    (hc : waveContRe.match? line = none)
    (he : waveEndRe.match? line = some (m, r1, c1))
    (hg : c1.lookup 1 = some g) :
    buildLoopF (fuel + 1) raw rem sTs dts pt eTs burst =
      buildLoopF fuel raw (rem.drop m.length) sTs dts pt (some g) burst := by
  simp only [buildLoopF, hne, Bool.false_eq_true, if_false, hp, hw, hf, hc, he, hg]

/-! ## Classification facts and the C1 span -/
/-- Recover the full preferred-match tuple from its consumed-prefix
projection (proved by `decide` for concrete lines). -/
theorem match?_full {M : Regex} {L : List Char}
    (h : (M.match? L).map (fun x => x.1) = some L) :
    ∃ r c, M.match? L = some (L, r, c) := by
  cases hm : M.match? L with
  | none => rw [hm] at h; simp at h
  | some x =>
      obtain ⟨m, r, c⟩ := x
      rw [hm] at h
      simp only [Option.map_some', Option.some.injEq] at h
      subst h
      exact ⟨r, c, rfl⟩

/-- Recover a capture-lookup fact from its projection. -/
theorem match?_lookup {M : Regex} {L : List Char} {n : Nat} {g m r : List Char}
    {c : Caps} (hm : M.match? L = some (m, r, c))
    (h : (M.match? L).bind (fun x => x.2.2.lookup n) = some g) :
    c.lookup n = some g := by
  rw [hm] at h
  simpa using h

/-- Every character of a continuation line body is not a newline. -/
theorem contPre_notNL {v : List Char} (hv : ContVal v) :
    ∀ a ∈ contPre v, notNL a = true := by
  obtain ⟨c, ds1, ds2, hc, h1, h2, rfl⟩ := hv
  intro a ha
  simp only [contPre, List.mem_append, List.mem_cons] at ha
  rcases ha with ha | rfl | rfl | ha | rfl | ha
  · revert a
    decide
  · decide
  · exact notNL_of_nz hc
  · exact notNL_of_digit (h1 a ha)
  · decide
  · exact notNL_of_digit (h2 a ha)

/-- At least as many bytes as lines in a continuation block. -/
theorem contBlock_len (vs : List (List Char)) : vs.length ≤ (contBlock vs).length := by
  induction vs with
  | nil => simp [contBlock]
  | cons v t ih =>
      simp only [contBlock, List.map_cons, List.flatten_cons, List.length_append,
        List.length_cons]
      have : 1 ≤ (contL v).length := by simp [contL]
      simp only [contBlock] at ih
      omega

/-- Processing the continuation lines and the end line from the
accumulating state emits exactly the burst range. -/
theorem sieve_cont_phase : ∀ (vs : List (List Char)), (∀ u ∈ vs, ContVal u) →
    ∀ (fuel d w : Nat), vs.length + 2 ≤ fuel →
      sieveLoopF fuel (contBlock vs ++ wendL) d WaveState.cont w =
        .ok [(w, d + (contBlock vs ++ wendL).length)] := by
  intro vs
  induction vs with
  | nil =>
      intro _ fuel d w hf
      obtain ⟨f1, rfl⟩ : ∃ f1, fuel = f1 + 1 := ⟨fuel - 1, by omega⟩
      have hp : presfRecordRe.match? (contBlock [] ++ wendL) =
          some (wendL, [], []) := by
        have := presf_match wendPre [] (by decide)
        simpa [contBlock, wendL] using this
      obtain ⟨r1, c1, hwe⟩ := match?_full (M := waveEndRe) (L := wendL) (by decide)
      rw [sieve_step_wend hp (by decide) (by decide) (by decide) (by decide)
        (by decide) hwe]
      obtain ⟨f2, rfl⟩ : ∃ f2, f1 = f2 + 1 := ⟨f1 - 1, by omega⟩
      have hdrop : (contBlock [] ++ wendL).drop wendL.length = [] := by
        simp [contBlock]
      rw [hdrop, sieve_step_break (by decide)]
      simp [Except.map, contBlock]
  | cons v t ih =>
      intro hvs fuel d w hf
      obtain ⟨f1, rfl⟩ : ∃ f1, fuel = f1 + 1 := ⟨fuel - 1, by omega⟩
      have hv : ContVal v := hvs v (by simp)
      have hblock : contBlock (v :: t) ++ wendL =
          contPre v ++ '\n' :: (contBlock t ++ wendL) := by
        simp [contBlock, contL, List.append_assoc]
      have hp : presfRecordRe.match? (contBlock (v :: t) ++ wendL) =
          some (contL v, contBlock t ++ wendL, []) := by
        rw [hblock]
        have := presf_match (contPre v) (contBlock t ++ wendL) (contPre_notNL hv)
        simpa [contL] using this
      obtain ⟨caps, hcm, _⟩ := waveCont_match hv
      rw [sieve_step_cont hp (metadata_no_cont hv) (tide_no_cont hv)
        (wstart_no_cont hv) (wptfreq_no_cont hv) hcm (Or.inr rfl)]
      have hdrop : (contBlock (v :: t) ++ wendL).drop (contL v).length =
          contBlock t ++ wendL := by
        have : contBlock (v :: t) ++ wendL = contL v ++ (contBlock t ++ wendL) := by
          simp [contBlock, List.append_assoc]
        rw [this, List.drop_left]
      rw [hdrop]
      rw [ih (fun u hu => hvs u (by simp [hu])) f1 (d + (contL v).length) w (by
        simp at hf ⊢
        omega)]
      have : d + (contL v).length + (contBlock t ++ wendL).length =
          d + (contBlock (v :: t) ++ wendL).length := by
        simp [contBlock, List.length_append]
        omega
      rw [this]

/-- A well-formed burst span with at least one continuation line sieves to
exactly the single burst range. -/
theorem sieve_c1_loop {v : List Char} {vs : List (List Char)} (hv : ContVal v)
    (hvs : ∀ u ∈ vs, ContVal u) :
    ∀ fuel, vs.length + 5 ≤ fuel →
      sieveLoopF fuel (c1Span (v :: vs)) 0 WaveState.notInProcess 0 =
        .ok [(0, (c1Span (v :: vs)).length)] := by
  intro fuel hf
  obtain ⟨f1, rfl⟩ : ∃ f1, fuel = f1 + 1 := ⟨fuel - 1, by omega⟩
  have hp1 : presfRecordRe.match? (c1Span (v :: vs)) =
      some (wstartL, ptfreqL ++ (contBlock (v :: vs) ++ wendL), []) := by
    have := presf_match wstartPre (ptfreqL ++ (contBlock (v :: vs) ++ wendL))
      (by decide)
    simpa [c1Span, wstartL, List.append_assoc] using this
  rw [sieve_step_wstart hp1 (by decide) (by decide) (waveStart_raw_match [])]
  have hdrop1 : (c1Span (v :: vs)).drop wstartL.length =
      ptfreqL ++ (contBlock (v :: vs) ++ wendL) := by
    simp only [c1Span]
    exact List.drop_left _ _
  rw [hdrop1]
  obtain ⟨f2, rfl⟩ : ∃ f2, f1 = f2 + 1 := ⟨f1 - 1, by omega⟩
  have hp2 : presfRecordRe.match? (ptfreqL ++ (contBlock (v :: vs) ++ wendL)) =
      some (ptfreqL, contBlock (v :: vs) ++ wendL, []) := by
    have := presf_match ptfreqPre (contBlock (v :: vs) ++ wendL) (by decide)
    simpa [ptfreqL, List.append_assoc] using this
  obtain ⟨rp, cp, hpf⟩ := match?_full (M := wavePtfreqRe) (L := ptfreqL) (by decide)
  rw [sieve_step_ptfreq hp2 (by decide) (by decide) (by decide) hpf]
  have hdrop2 : (ptfreqL ++ (contBlock (v :: vs) ++ wendL)).drop ptfreqL.length =
      contBlock (v :: vs) ++ wendL := List.drop_left _ _
  rw [hdrop2]
  obtain ⟨f3, rfl⟩ : ∃ f3, f2 = f3 + 1 := ⟨f2 - 1, by omega⟩
  have hblock : contBlock (v :: vs) ++ wendL =
      contPre v ++ '\n' :: (contBlock vs ++ wendL) := by
    simp [contBlock, contL, List.append_assoc]
  have hp3 : presfRecordRe.match? (contBlock (v :: vs) ++ wendL) =
      some (contL v, contBlock vs ++ wendL, []) := by
    rw [hblock]
    have := presf_match (contPre v) (contBlock vs ++ wendL) (contPre_notNL hv)
    simpa [contL] using this
  obtain ⟨caps, hcm, _⟩ := waveCont_match hv
  rw [sieve_step_cont hp3 (metadata_no_cont hv) (tide_no_cont hv)
    (wstart_no_cont hv) (wptfreq_no_cont hv) hcm (Or.inl rfl)]
  have hdrop3 : (contBlock (v :: vs) ++ wendL).drop (contL v).length =
      contBlock vs ++ wendL := by
    have : contBlock (v :: vs) ++ wendL = contL v ++ (contBlock vs ++ wendL) := by
      simp [contBlock, List.append_assoc]
    rw [this, List.drop_left]
  rw [hdrop3]
  rw [sieve_cont_phase vs hvs f3
    (0 + wstartL.length + ptfreqL.length + (contL v).length) 0 (by simp at hf ⊢; omega)]
  have : 0 + wstartL.length + ptfreqL.length + (contL v).length +
      (contBlock vs ++ wendL).length = (c1Span (v :: vs)).length := by
    simp [c1Span, contBlock, List.length_append]
    omega
  rw [this]

/-- A list headed by a cons after an append is nonempty. -/
theorem isEmpty_append_cons (x : List Char) (y : Char) (z : List Char) :
    (x ++ y :: z).isEmpty = false := by
  cases x <;> simp [List.isEmpty]

/-- Processing the continuation lines and the end line of a burst
accumulates the samples in arrival order and records the end timestamp. -/
theorem build_cont_phase : ∀ (vs : List (List Char)), (∀ u ∈ vs, ContVal u) →
    ∀ (fuel : Nat) (raw : List Char) (s dt p : List Char)
      (eTs : Option (List Char)) (burst : List (List Char)),
      vs.length + 2 ≤ fuel →
      buildLoopF fuel raw (contBlock vs ++ wendL) (some s) (some dt) (some p)
        eTs burst =
        .ok { dclControllerStartTimestamp := s, dclControllerEndTimestamp := wendTs,
              dateTimeString := dt, ptempFrequency := p,
              absolutePressureBurst := burst ++ vs } := by
  intro vs
  induction vs with
  | nil =>
      intro _ fuel raw s dt p eTs burst hf
      obtain ⟨f1, rfl⟩ : ∃ f1, fuel = f1 + 1 := ⟨fuel - 1, by omega⟩
      have hne : (contBlock [] ++ wendL).isEmpty = false := by
        have : contBlock [] ++ wendL = wendPre ++ '\n' :: [] := by
          simp [contBlock, wendL]
        rw [this]
        exact isEmpty_append_cons _ _ _
      have hp : presfRecordRe.match? (contBlock [] ++ wendL) =
          some (wendL, [], []) := by
        have := presf_match wendPre [] (by decide)
        simpa [contBlock, wendL] using this
      obtain ⟨r1, c1, hwe⟩ := match?_full (M := waveEndRe) (L := wendL) (by decide)
      have hg : c1.lookup 1 = some wendTs :=
        match?_lookup hwe (by decide)
      rw [build_step_wend hne hp (by decide) (by decide) (by decide) hwe hg]
      obtain ⟨f2, rfl⟩ : ∃ f2, f1 = f2 + 1 := ⟨f1 - 1, by omega⟩
      have hdrop : (contBlock [] ++ wendL).drop wendL.length = [] := by
        simp [contBlock]
      rw [hdrop, build_step_done]
      simp
  | cons v t ih =>
      intro hvs fuel raw s dt p eTs burst hf
      obtain ⟨f1, rfl⟩ : ∃ f1, fuel = f1 + 1 := ⟨fuel - 1, by omega⟩
      have hv : ContVal v := hvs v (by simp)
      have hblock : contBlock (v :: t) ++ wendL =
          contPre v ++ '\n' :: (contBlock t ++ wendL) := by
        simp [contBlock, contL, List.append_assoc]
      have hne : (contBlock (v :: t) ++ wendL).isEmpty = false := by
        rw [hblock]; exact isEmpty_append_cons _ _ _
      have hp : presfRecordRe.match? (contBlock (v :: t) ++ wendL) =
          some (contL v, contBlock t ++ wendL, []) := by
        rw [hblock]
        have := presf_match (contPre v) (contBlock t ++ wendL) (contPre_notNL hv)
        simpa [contL] using this
      obtain ⟨caps, hcm, hlk⟩ := waveCont_match hv
      rw [build_step_cont hne hp (wstart_no_cont hv) (wptfreq_no_cont hv) hcm hlk]
      have hdrop : (contBlock (v :: t) ++ wendL).drop (contL v).length =
          contBlock t ++ wendL := by
        have : contBlock (v :: t) ++ wendL = contL v ++ (contBlock t ++ wendL) := by
          simp [contBlock, List.append_assoc]
        rw [this, List.drop_left]
      rw [hdrop]
      rw [ih (fun u hu => hvs u (by simp [hu])) f1 raw s dt p eTs (burst ++ [v]) (by
        simp at hf ⊢
        omega)]
      simp

/-- Building the wave particle of a well-formed burst span yields the
samples in arrival order. -/
theorem build_c1_loop {v : List Char} {vs : List (List Char)} (hv : ContVal v)
    (hvs : ∀ u ∈ vs, ContVal u) :
    ∀ fuel, vs.length + 5 ≤ fuel →
      buildLoopF fuel (c1Span (v :: vs)) (c1Span (v :: vs)) none none none none [] =
        .ok { dclControllerStartTimestamp := wstartTs,
              dclControllerEndTimestamp := wendTs,
              dateTimeString := wstartDts, ptempFrequency := ptfreqVal,
              absolutePressureBurst := v :: vs } := by
  intro fuel hf
  obtain ⟨f1, rfl⟩ : ∃ f1, fuel = f1 + 1 := ⟨fuel - 1, by omega⟩
  have hspan : c1Span (v :: vs) =
      wstartPre ++ '\n' :: (ptfreqL ++ (contBlock (v :: vs) ++ wendL)) := by
    simp [c1Span, wstartL, List.append_assoc]
  have hne1 : (c1Span (v :: vs)).isEmpty = false := by
    rw [hspan]; exact isEmpty_append_cons _ _ _
  have hp1 : presfRecordRe.match? (c1Span (v :: vs)) =
      some (wstartL, ptfreqL ++ (contBlock (v :: vs) ++ wendL), []) := by
    have := presf_match wstartPre (ptfreqL ++ (contBlock (v :: vs) ++ wendL))
      (by decide)
    rw [hspan]
    simpa [wstartL] using this
  have hraw : waveStartRe.match? (c1Span (v :: vs)) =
      some (wstartL, ptfreqL ++ (contBlock (v :: vs) ++ wendL), wstartCaps) := by
    rw [hspan]
    exact waveStart_raw_match _
  have hg1 : wstartCaps.lookup 1 = some wstartTs := by decide
  have hg12 : wstartCaps.lookup 12 = some wstartDts := by decide
  rw [build_step_wstart hne1 hp1 (waveStart_raw_match []) hraw hg1 hg12]
  have hdrop1 : (c1Span (v :: vs)).drop wstartL.length =
      ptfreqL ++ (contBlock (v :: vs) ++ wendL) := by
    simp only [c1Span]
    exact List.drop_left _ _
  rw [hdrop1]
  obtain ⟨f2, rfl⟩ : ∃ f2, f1 = f2 + 1 := ⟨f1 - 1, by omega⟩
  have hne2 : (ptfreqL ++ (contBlock (v :: vs) ++ wendL)).isEmpty = false := by
    have : ptfreqL ++ (contBlock (v :: vs) ++ wendL) =
        ptfreqPre ++ '\n' :: (contBlock (v :: vs) ++ wendL) := by
      simp [ptfreqL, List.append_assoc]
    rw [this]; exact isEmpty_append_cons _ _ _
  have hp2 : presfRecordRe.match? (ptfreqL ++ (contBlock (v :: vs) ++ wendL)) =
      some (ptfreqL, contBlock (v :: vs) ++ wendL, []) := by
    have := presf_match ptfreqPre (contBlock (v :: vs) ++ wendL) (by decide)
    simpa [ptfreqL, List.append_assoc] using this
  obtain ⟨rp, cp, hpf⟩ := match?_full (M := wavePtfreqRe) (L := ptfreqL) (by decide)
  have hgp : cp.lookup 12 = some ptfreqVal := match?_lookup hpf (by decide)
  rw [build_step_ptfreq hne2 hp2 (by decide) hpf hgp]
  have hdrop2 : (ptfreqL ++ (contBlock (v :: vs) ++ wendL)).drop ptfreqL.length =
      contBlock (v :: vs) ++ wendL := List.drop_left _ _
  rw [hdrop2]
  rw [build_cont_phase (v :: vs) (fun u hu => by
      rcases List.mem_cons.1 hu with rfl | hu
      · exact hv
      · exact hvs u hu)
    f2 (c1Span (v :: vs)) wstartTs wstartDts ptfreqVal none [] (by simp at hf ⊢; omega)]
  simp

set_option maxRecDepth 4000 in
/-- Claim C1: a span consisting of a wave-burst-start line, a ptfreq line,
`N ≥ 1` continuation lines and a burst-end line sieves to exactly one
RecordRange spanning from the start line's offset (0) to the end of the end
line (the span's length), and decoding that range yields an
`absolute_pressure_burst` list equal to the continuation values in arrival
order (hence of length `N`); with `N = 0` (end line directly after the
ptfreq line) the sieve raises instead of emitting a range, treating the
sequence as malformed. -/
theorem claim_c1 (v : List Char) (vs : List (List Char)) (hv : ContVal v)
    (hvs : ∀ u ∈ vs, ContVal u) :
    sieve_function (c1Span (v :: vs)) = .ok [(0, (c1Span (v :: vs)).length)] ∧
    (build_parsed_values (c1Span (v :: vs))).map
      (fun r => r.absolutePressureBurst) = .ok (v :: vs) ∧
    sieve_function (c1Span []) = .error .recoverableSample := by
  have hlen : (c1Span (v :: vs)).length = wstartL.length + (ptfreqL.length +
      ((contL v).length + ((contBlock vs).length + wendL.length))) := by
    simp [c1Span, contBlock]
  have h1 := contBlock_len vs
  have h2 : 4 ≤ wstartL.length := by decide
  refine ⟨?_, ?_, ?_⟩
  · exact sieve_c1_loop hv hvs _ (by omega)
  · unfold build_parsed_values
    rw [build_c1_loop hv hvs _ (by omega)]
    rfl
  · decide

/-- Witness for C1 at a concrete two-sample burst. -/
theorem claim_c1_witness :
    ContVal "14.6498".toList ∧ (∀ u ∈ ["15.01".toList], ContVal u) ∧
    (sieve_function (c1Span ["14.6498".toList, "15.01".toList]) =
        .ok [(0, (c1Span ["14.6498".toList, "15.01".toList]).length)] ∧
      (build_parsed_values (c1Span ["14.6498".toList, "15.01".toList])).map
        (fun r => r.absolutePressureBurst) =
          .ok ["14.6498".toList, "15.01".toList] ∧
      sieve_function (c1Span []) = .error .recoverableSample) := by
  have hv : ContVal "14.6498".toList :=
    ⟨'1', ['4'], ['6', '4', '9', '8'], by decide, by decide, by decide, rfl⟩
  have hvs : ∀ u ∈ ["15.01".toList], ContVal u := by
    intro u hu
    simp only [List.mem_singleton] at hu
    subst hu
    exact ⟨'1', ['5'], ['0', '1'], by decide, by decide, by decide, rfl⟩
  exact ⟨hv, hvs, claim_c1 _ _ hv hvs⟩

/-! ## Range invariants of the sieve (claims C5 and C6) -/
/-- Matches of the six line grammars end with a newline character. -/
theorem metadata_nl {l : List Char} {x : MatchRes} (h : metadataRe.match? l = some x) :
    ∃ pre, x.1 = pre ++ ['\n'] :=
  run_cats_nl [timestampRe, wsRe 9, .lit ['['], anyChars, .lit [']'], anyChars] l x
    (match?_mem h)

/-- Tide matches end with a newline character. -/
theorem tide_nl {l : List Char} {x : MatchRes} (h : tideRe.match? l = some x) :
    ∃ pre, x.1 = pre ++ ['\n'] :=
  run_cats_nl [timestampRe, wsRe 9, .lit "tide:".toList, wsRe 10,
    .lit "start time =".toList, wsRe 11, dateTimeStrRe 12, .lit [','], wsRe 13,
    .lit "p =".toList, wsRe 14, floatRe 15, .lit [','], wsRe 16,
    .lit "pt =".toList, wsRe 17, floatRe 18, .lit [','], wsRe 19,
    .lit "t =".toList, wsRe 20, floatRe 21] l x (match?_mem h)

/-- Wave-start matches end with a newline character. -/
theorem wstart_nl {l : List Char} {x : MatchRes} (h : waveStartRe.match? l = some x) :
    ∃ pre, x.1 = pre ++ ['\n'] :=
  run_cats_nl [timestampRe, wsRe 9, .lit "wave:".toList, wsRe 10,
    .lit "start time =".toList, wsRe 11, dateTimeStrRe 12] l x (match?_mem h)

/-- Wave-ptfreq matches end with a newline character. -/
theorem wptfreq_nl {l : List Char} {x : MatchRes} (h : wavePtfreqRe.match? l = some x) :
    ∃ pre, x.1 = pre ++ ['\n'] :=
  run_cats_nl [timestampRe, wsRe 9, .lit "wave:".toList, wsRe 10,
    .lit "ptfreq =".toList, wsRe 11, floatRe 12] l x (match?_mem h)

/-- Wave-continuation matches end with a newline character. -/
theorem wcont_nl {l : List Char} {x : MatchRes} (h : waveContRe.match? l = some x) :
    ∃ pre, x.1 = pre ++ ['\n'] :=
  run_cats_nl [timestampRe, wsRe 9, floatRe 10] l x (match?_mem h)

/-- Wave-end matches end with a newline character. -/
theorem wend_nl {l : List Char} {x : MatchRes} (h : waveEndRe.match? l = some x) :
    ∃ pre, x.1 = pre ++ ['\n'] :=
  run_cats_nl [timestampRe, wsRe 9, .lit "wave: end burst".toList] l x (match?_mem h)

/-- The invariant is antitone in its lower bound. -/
theorem okRanges_mono {raw : List Char} {lo lo' : Nat} {L : List (Nat × Nat)}
    (h : lo' ≤ lo) : okRanges raw lo L → okRanges raw lo' L := by
  cases L with
  | nil => intro _; trivial
  | cons r t =>
      obtain ⟨s, e⟩ := r
      intro ⟨h1, h2, h3, h4, h5⟩
      exact ⟨h1, h2, by omega, h4, h5⟩

/-- Shared bookkeeping for one sieve step: the matched line prefix is
nonempty, stays inside the span, advancing commutes with `drop`, and the
last matched character of the span is a newline. -/
theorem step_facts {raw rem line r0 m r1 : List Char} {idx : Nat}
    (hrem : rem = raw.drop idx) (hidx : idx ≤ raw.length)
    (hsplit0 : rem = line ++ r0) (hline : line = m ++ r1)
    (hpre : ∃ pre, m = pre ++ ['\n']) :
    1 ≤ m.length ∧ idx + m.length ≤ raw.length ∧
      rem.drop m.length = raw.drop (idx + m.length) ∧
      raw.get? (idx + m.length - 1) = some '\n' := by
  obtain ⟨pre, rfl⟩ := hpre
  have hmlen : (pre ++ ['\n']).length = pre.length + 1 := by simp
  have hremlen : rem.length = raw.length - idx := by
    rw [hrem]; simp
  have hle : (pre ++ ['\n']).length ≤ rem.length := by
    rw [hsplit0, hline]
    simp
  have hdrop : rem.drop (pre ++ ['\n']).length = raw.drop (idx + (pre ++ ['\n']).length) := by
    rw [hrem, List.drop_drop, Nat.add_comm]
  have hget : raw.get? (idx + (pre ++ ['\n']).length - 1) = some '\n' := by
    have hpos : idx + (pre ++ ['\n']).length - 1 = idx + pre.length := by omega
    rw [hpos]
    have h1 : raw.get? (idx + pre.length) = (raw.drop idx).get? pre.length := by
      simp [List.get?_drop]
    rw [h1, ← hrem, hsplit0, hline]
    have : (pre ++ ['\n'] ++ r1) ++ r0 = pre ++ '\n' :: (r1 ++ r0) := by
      simp [List.append_assoc]
    rw [this]
    rw [List.get?_append_right (by omega)]
    simp
  exact ⟨by omega, by omega, hdrop, hget⟩

/-- Invert a mapped sieve result. -/
theorem except_map_ok {α β γ : Type} {f : α → β} {x : Except γ α} {y : β}
    (h : x.map f = .ok y) : ∃ a, x = .ok a ∧ y = f a := by
  cases x with
  | error e => simp [Except.map] at h
  | ok a => exact ⟨a, rfl, by simpa [Except.map] using h.symm⟩

/-- Every successful sieve invocation returns ranges satisfying the
invariant. -/
theorem sieveLoopF_ok_ranges : ∀ (fuel : Nat) (raw rem : List Char) (idx : Nat)
    (st : WaveState) (wsi : Nat) (L : List (Nat × Nat)),
    rem = raw.drop idx → idx ≤ raw.length →
    (st ≠ WaveState.notInProcess → wsi ≤ idx) →
    sieveLoopF fuel rem idx st wsi = .ok L →
    okRanges raw idx L := by
  intro fuel
  induction fuel with
  | zero =>
      intro raw rem idx st wsi L _ _ _ h
      simp [sieveLoopF] at h
  | succ fuel ih =>
      intro raw rem idx st wsi L hrem hidx hwsi h
      cases hp : presfRecordRe.match? rem with
      | none =>
          rw [sieve_step_break hp] at h
          simp only [Except.ok.injEq] at h
          subst h
          trivial
      | some x =>
          obtain ⟨line, r0, c0⟩ := x
          have hsplit0 : rem = line ++ r0 := run_split _ _ _ (match?_mem hp)
          cases hm : metadataRe.match? line with
          | some y =>
              obtain ⟨m, r1, c1⟩ := y
              rw [sieve_step_meta hp hm] at h
              obtain ⟨ha, hb, hc, hd⟩ := step_facts hrem hidx hsplit0
                (run_split _ _ _ (match?_mem hm)) (metadata_nl hm)
              dsimp only at ha hb hc hd
              refine okRanges_mono (Nat.le_add_right idx m.length)
                (ih raw (rem.drop m.length) (idx + m.length) st wsi L hc hb
                  (fun hst => Nat.le_trans (hwsi hst) (Nat.le_add_right _ _)) h)
          | none =>
          cases ht : tideRe.match? line with
          | some y =>
              obtain ⟨m, r1, c1⟩ := y
              rw [sieve_step_tide hp hm ht] at h
              obtain ⟨L', hL', rfl⟩ := except_map_ok h
              obtain ⟨ha, hb, hc, hd⟩ := step_facts hrem hidx hsplit0
                (run_split _ _ _ (match?_mem ht)) (tide_nl ht)
              dsimp only at ha hb hc hd
              have hrec := ih raw (rem.drop m.length) (idx + m.length) st wsi L'
                hc hb (fun hst => Nat.le_trans (hwsi hst) (Nat.le_add_right _ _)) hL'
              exact ⟨by omega, hb, by omega, hd, hrec⟩
          | none =>
          cases hw : waveStartRe.match? line with
          | some y =>
              obtain ⟨m, r1, c1⟩ := y
              by_cases hst : st = WaveState.notInProcess
              · subst hst
                rw [sieve_step_wstart hp hm ht hw] at h
                obtain ⟨ha, hb, hc, hd⟩ := step_facts hrem hidx hsplit0
                  (run_split _ _ _ (match?_mem hw)) (wstart_nl hw)
                dsimp only at ha hb hc hd
                refine okRanges_mono (Nat.le_add_right idx m.length)
                  (ih raw (rem.drop m.length) (idx + m.length) WaveState.started idx L
                    hc hb (fun _ => Nat.le_add_right _ _) h)
              · rw [sieve_step_wstart_err hp hm ht hw hst] at h
                simp at h
          | none =>
          cases hf : wavePtfreqRe.match? line with
          | some y =>
              obtain ⟨m, r1, c1⟩ := y
              by_cases hst : st = WaveState.started
              · subst hst
                rw [sieve_step_ptfreq hp hm ht hw hf] at h
                obtain ⟨ha, hb, hc, hd⟩ := step_facts hrem hidx hsplit0
                  (run_split _ _ _ (match?_mem hf)) (wptfreq_nl hf)
                dsimp only at ha hb hc hd
                refine okRanges_mono (Nat.le_add_right idx m.length)
                  (ih raw (rem.drop m.length) (idx + m.length) WaveState.ptfreq wsi L
                    hc hb (fun _ => Nat.le_trans (hwsi (by simp)) (Nat.le_add_right _ _)) h)
              · rw [sieve_step_ptfreq_err hp hm ht hw hf hst] at h
                simp at h
          | none =>
          cases hc2 : waveContRe.match? line with
          | some y =>
              obtain ⟨m, r1, c1⟩ := y
              by_cases hst : st = WaveState.ptfreq ∨ st = WaveState.cont
              · rw [sieve_step_cont hp hm ht hw hf hc2 hst] at h
                obtain ⟨ha, hb, hc, hd⟩ := step_facts hrem hidx hsplit0
                  (run_split _ _ _ (match?_mem hc2)) (wcont_nl hc2)
                dsimp only at ha hb hc hd
                have hwsi2 : wsi ≤ idx := hwsi (by rcases hst with rfl | rfl <;> simp)
                refine okRanges_mono (Nat.le_add_right idx m.length)
                  (ih raw (rem.drop m.length) (idx + m.length) WaveState.cont wsi L
                    hc hb (fun _ => by omega) h)
              · rw [sieve_step_cont_err hp hm ht hw hf hc2 (by
                    constructor
                    · intro hx; exact hst (Or.inl hx)
                    · intro hx; exact hst (Or.inr hx))] at h
                simp at h
          | none =>
          cases he : waveEndRe.match? line with
          | some y =>
              obtain ⟨m, r1, c1⟩ := y
              by_cases hst : st = WaveState.cont
              · subst hst
                rw [sieve_step_wend hp hm ht hw hf hc2 he] at h
                obtain ⟨L', hL', rfl⟩ := except_map_ok h
                obtain ⟨ha, hb, hc, hd⟩ := step_facts hrem hidx hsplit0
                  (run_split _ _ _ (match?_mem he)) (wend_nl he)
                dsimp only at ha hb hc hd
                have hwsi2 : wsi ≤ idx := hwsi (by simp)
                have hrec := ih raw (rem.drop m.length) (idx + m.length)
                  WaveState.notInProcess wsi L' hc hb (by simp) hL'
                exact ⟨by omega, hb, by omega, hd, hrec⟩
              · rw [sieve_step_wend_err hp hm ht hw hf hc2 he hst] at h
                simp at h
          | none =>
              rw [sieve_step_unmatched hp hm ht hw hf hc2 he] at h
              simp at h

/-- Characters indexed inside a `takeWhile` satisfy the predicate. -/
theorem takeWhile_pred {p : Char → Bool} : ∀ (l : List Char) (j : Nat) (c : Char),
    j < (l.takeWhile p).length → l.get? j = some c → p c = true := by
  intro l
  induction l with
  | nil => intro j c hj _; simp [List.takeWhile] at hj
  | cons a t ih =>
      intro j c hj hg
      simp only [List.takeWhile] at hj
      cases hpa : p a with
      | false => rw [hpa] at hj; simp at hj
      | true =>
          rw [hpa] at hj
          simp only [List.length_cons] at hj
          cases j with
          | zero =>
              simp only [List.get?] at hg
              cases hg
              exact hpa
          | succ j' =>
              exact ih j' c (by omega) hg

/-- A position holding a newline lies inside the complete prefix. -/
theorem newline_lt_completePrefixLen {raw : List Char} {k : Nat}
    (h : raw.get? k = some '\n') : k < completePrefixLen raw := by
  have hk : k < raw.length := by
    by_contra hk
    rw [List.get?_eq_none.2 (by omega)] at h
    cases h
  by_contra hlt
  simp only [completePrefixLen, not_lt] at hlt
  have hj : raw.length - 1 - k < (raw.reverse.takeWhile notNL).length := by
    have := (List.takeWhile_sublist (p := notNL) (l := raw.reverse)).length_le
    simp only [List.length_reverse] at this
    omega
  have hg : raw.reverse.get? (raw.length - 1 - k) = some '\n' := by
    rw [List.get?_reverse (by omega)]
    have : raw.length - 1 - (raw.length - 1 - k) = k := by omega
    rw [this]
    exact h
  have := takeWhile_pred raw.reverse (raw.length - 1 - k) '\n' hj hg
  simp [notNL] at this

/-- Flatten the range invariant into per-range facts. -/
theorem okRanges_spread {raw : List Char} : ∀ {lo : Nat} {L : List (Nat × Nat)},
    okRanges raw lo L →
    (∀ r ∈ L, r.1 < r.2 ∧ r.2 ≤ raw.length ∧ raw.get? (r.2 - 1) = some '\n' ∧
      lo < r.2) ∧
    List.Pairwise (fun a b : Nat × Nat => a.2 < b.2) L := by
  intro lo L
  induction L generalizing lo with
  | nil => intro _; exact ⟨by simp, by simp⟩
  | cons r t ih =>
      obtain ⟨s, e⟩ := r
      intro ⟨h1, h2, h3, h4, h5⟩
      obtain ⟨ihm, ihp⟩ := ih h5
      refine ⟨?_, ?_⟩
      · intro q hq
        rcases List.mem_cons.1 hq with rfl | hq
        · exact ⟨h1, h2, h4, h3⟩
        · obtain ⟨a, b, c, d⟩ := ihm q hq
          exact ⟨a, b, c, by omega⟩
      · refine List.pairwise_cons.2 ⟨?_, ihp⟩
        intro q hq
        exact (ihm q hq).2.2.2

/-- Claim C5: a RecordRange returned by the sieve never extends into an
incomplete trailing line: every returned range ends at or before the last
newline-terminated position of the span, so unterminated trailing bytes
are left unconsumed for the next call. -/
theorem claim_c5 (raw : List Char) (L : List (Nat × Nat))
    (h : sieve_function raw = .ok L) :
    ∀ r ∈ L, r.2 ≤ completePrefixLen raw := by
  have hok : okRanges raw 0 L := by
    apply sieveLoopF_ok_ranges (raw.length + 1) raw raw 0 WaveState.notInProcess 0 L
    · simp
    · simp
    · intro hst; simp
    · exact h
  intro r hr
  obtain ⟨h1, _, h3, _⟩ := (okRanges_spread hok).1 r hr
  have := newline_lt_completePrefixLen h3
  omega

set_option maxRecDepth 8000 in
/-- Witness for C5: a tide record followed by an unterminated line. -/
theorem claim_c5_witness :
    sieve_function (tideL ++ "2014/04/17 17:59:12.000 tide: start".toList) =
      .ok [(0, tideL.length)] ∧
    (0, tideL.length) ∈ [(0, tideL.length)] ∧
    (0, tideL.length).2 ≤
      completePrefixLen (tideL ++ "2014/04/17 17:59:12.000 tide: start".toList) := by
  refine ⟨by decide, by decide, ?_⟩
  exact claim_c5 (tideL ++ "2014/04/17 17:59:12.000 tide: start".toList)
    [(0, tideL.length)] (by decide) (0, tideL.length) (by simp)

set_option maxRecDepth 16000 in
/-- Counterexample for claim C6: on `c6span` the sieve accepts a tide line
inside an open wave burst and emits the tide range `(146, 249)` followed by
the burst range `(0, 289)`; the second range starts at 0, before (not at or
after) the end 249 of the first, so the returned ranges are neither
strictly increasing nor non-overlapping. -/
theorem claim_c6_counterexample :
    sieve_function c6span = .ok [(146, 249), (0, 289)] ∧ ¬ (249 ≤ 0) := by
  exact ⟨by decide, by omega⟩

/-- Claim C6 (amended): every range `(s, e)` returned by one sieve
invocation satisfies `s < e ≤ len(span)`, and the ranges' end offsets are
strictly increasing; but the start offsets need not increase and ranges may
overlap (a tide line inside an open burst yields a tide range that the
later burst range overlaps, see the counterexample). -/
theorem claim_c6 (raw : List Char) (L : List (Nat × Nat))
    (h : sieve_function raw = .ok L) :
    (∀ r ∈ L, r.1 < r.2 ∧ r.2 ≤ raw.length) ∧
    List.Pairwise (fun a b : Nat × Nat => a.2 < b.2) L := by
  have hok : okRanges raw 0 L := by
    apply sieveLoopF_ok_ranges (raw.length + 1) raw raw 0 WaveState.notInProcess 0 L
    · simp
    · simp
    · intro hst; simp
    · exact h
  obtain ⟨hm, hp⟩ := okRanges_spread hok
  exact ⟨fun r hr => ⟨(hm r hr).1, (hm r hr).2.1⟩, hp⟩

set_option maxRecDepth 8000 in
/-- Witness for C6 (amended) on a single tide record. -/
theorem claim_c6_witness :
    sieve_function tideL = .ok [(0, tideL.length)] ∧
    ((0, tideL.length).1 < (0, tideL.length).2 ∧
      (0, tideL.length).2 ≤ tideL.length) ∧
    List.Pairwise (fun a b : Nat × Nat => a.2 < b.2) [(0, tideL.length)] :=
  ⟨by decide,
   (claim_c6 tideL [(0, tideL.length)] (by decide)).1 (0, tideL.length) (by simp),
   (claim_c6 tideL [(0, tideL.length)] (by decide)).2⟩

set_option maxRecDepth 16000 in
/-- Counterexample for claim C4: on `c4span` (tide record, burst start,
second burst start, tide record) the sieve raises
`RecoverableSampleException` instead of returning; the claim's promised
behavior — one anomaly, no range for the aborted burst, but the
surrounding well-formed tide records still produced by this invocation —
does not happen, since an error returns no ranges at all. -/
theorem claim_c4_counterexample :
    sieve_function c4span = .error .recoverableSample := by decide

set_option maxRecDepth 16000 in
/-- Claim C4 (amended): a wave-burst-start line encountered while the
burst machine is in any busy state makes `sieve_function` raise
`RecoverableSampleException`; the exception aborts the entire invocation,
so no RecordRange at all is returned — including ranges of well-formed
records located before the offending line — and scanning does not resume
at the offending line within that call. -/
theorem claim_c4 (fuel : Nat) (rem line r0 m r1 : List Char) (c0 c1 : Caps)
    (d : Nat) (st : WaveState) (w : Nat)
    (hp : presfRecordRe.match? rem = some (line, r0, c0))
    (hm : metadataRe.match? line = none)
    (ht : tideRe.match? line = none)
    (hw : waveStartRe.match? line = some (m, r1, c1))
    (hst : st ≠ WaveState.notInProcess) :
    sieveLoopF (fuel + 1) rem d st w = .error .recoverableSample ∧
    sieve_function c4span = .error .recoverableSample ∧
    sieve_function tideL = .ok [(0, tideL.length)] :=
  ⟨sieve_step_wstart_err hp hm ht hw hst, by decide, by decide⟩

set_option maxRecDepth 8000 in
/-- Witness for C4 (amended): a burst-start line arriving in the
`started` state. -/
theorem claim_c4_witness :
    presfRecordRe.match? wstartL = some (wstartL, [], []) ∧
    metadataRe.match? wstartL = none ∧
    tideRe.match? wstartL = none ∧
    waveStartRe.match? wstartL = some (wstartL, [], wstartCaps) ∧
    WaveState.started ≠ WaveState.notInProcess ∧
    (sieveLoopF 1 wstartL 0 WaveState.started 0 = .error .recoverableSample ∧
      sieve_function c4span = .error .recoverableSample ∧
      sieve_function tideL = .ok [(0, tideL.length)]) :=
  ⟨by decide, by decide, by decide, by decide, by decide,
   claim_c4 0 wstartL wstartL [] wstartL [] [] wstartCaps 0 WaveState.started 0
     (by decide) (by decide) (by decide) (by decide) (by decide)⟩

set_option maxRecDepth 16000 in
/-- Claim C10: a complete line that violates the burst state machine or
matches none of the six line grammars makes the sieve raise instead of
returning, so the caller receives no RecordRanges at all from that
invocation.  The five conditional conjuncts follow the source's
classification order and cover every `raise` of the loop: a burst-start
line while a burst is in progress, a ptfreq line outside the started
state, a continuation line outside the ptfreq/accumulating states, an
end-burst line without an accumulated continuation, and a line matching
none of the grammars.  The two concrete conjuncts show the discard of
earlier complete records: the range of a well-formed tide record located
before an offending line is lost, though the same invocation would have
returned it had the stream ended before that line. -/
theorem claim_c10 (fuel : Nat) (rem line r0 : List Char) (c0 : Caps)
    (d : Nat) (st : WaveState) (w : Nat)
    (hp : presfRecordRe.match? rem = some (line, r0, c0))
    (hm : metadataRe.match? line = none)
    (ht : tideRe.match? line = none) :
    ((waveStartRe.match? line).isSome = true → st ≠ WaveState.notInProcess →
       sieveLoopF (fuel + 1) rem d st w = .error .recoverableSample) ∧
    (waveStartRe.match? line = none →
       (wavePtfreqRe.match? line).isSome = true → st ≠ WaveState.started →
       sieveLoopF (fuel + 1) rem d st w = .error .recoverableSample) ∧
    (waveStartRe.match? line = none → wavePtfreqRe.match? line = none →
       (waveContRe.match? line).isSome = true →
       st ≠ WaveState.ptfreq → st ≠ WaveState.cont →
       sieveLoopF (fuel + 1) rem d st w = .error .recoverableSample) ∧
    (waveStartRe.match? line = none → wavePtfreqRe.match? line = none →
       waveContRe.match? line = none → (waveEndRe.match? line).isSome = true →
       st ≠ WaveState.cont →
       sieveLoopF (fuel + 1) rem d st w = .error .recoverableSample) ∧
    (waveStartRe.match? line = none → wavePtfreqRe.match? line = none →
       waveContRe.match? line = none → waveEndRe.match? line = none →
       sieveLoopF (fuel + 1) rem d st w = .error .recoverableSample) ∧
    sieve_function (tideL ++ badL) = .error .recoverableSample ∧
    sieve_function tideL = .ok [(0, tideL.length)] := by
  refine ⟨?_, ?_, ?_, ?_, ?_, by decide, by decide⟩
  · intro hs hst
    obtain ⟨⟨m, r1, c1⟩, hw⟩ := Option.isSome_iff_exists.mp hs
    exact sieve_step_wstart_err hp hm ht hw hst
  · intro hw hs hst
    obtain ⟨⟨m, r1, c1⟩, hf⟩ := Option.isSome_iff_exists.mp hs
    exact sieve_step_ptfreq_err hp hm ht hw hf hst
  · intro hw hf hs h1 h2
    obtain ⟨⟨m, r1, c1⟩, hc⟩ := Option.isSome_iff_exists.mp hs
    exact sieve_step_cont_err hp hm ht hw hf hc ⟨h1, h2⟩
  · intro hw hf hc hs hst
    obtain ⟨⟨m, r1, c1⟩, he⟩ := Option.isSome_iff_exists.mp hs
    exact sieve_step_wend_err hp hm ht hw hf hc he hst
  · intro hw hf hc he
    exact sieve_step_unmatched hp hm ht hw hf hc he

set_option maxRecDepth 8000 in
/-- Witness for C10: a ptfreq line arriving while the state machine is
idle — a grammar-matching line that violates the burst state machine. -/
theorem claim_c10_witness :
    presfRecordRe.match? ptfreqL = some (ptfreqL, [], []) ∧
    metadataRe.match? ptfreqL = none ∧
    tideRe.match? ptfreqL = none ∧
    waveStartRe.match? ptfreqL = none ∧
    (wavePtfreqRe.match? ptfreqL).isSome = true ∧
    WaveState.notInProcess ≠ WaveState.started ∧
    sieveLoopF 1 ptfreqL 0 WaveState.notInProcess 0 = .error .recoverableSample :=
  ⟨by decide, by decide, by decide, by decide, by decide, by decide,
   (claim_c10 0 ptfreqL ptfreqL [] [] 0 WaveState.notInProcess 0
      (by decide) (by decide) (by decide)).2.1 (by decide) (by decide) (by decide)⟩

/-- Claim C8: the sieve is deterministic and side-effect free with respect
to its input.  The source method reads nothing but its `raw_data` argument
and locals (it closes over `self` only for logging), so its embedding is a
pure function of the span, and two calls on the same immutable span return
the identical sequence of RecordRanges definitionally. -/
theorem claim_c8 (raw : List Char) : sieve_function raw = sieve_function raw := rfl

set_option maxRecDepth 16000 in
/-- Claim C9: every match of the `FLOAT` pattern starts with a digit in
`1-9`, so a line whose numeric field starts with `0` (such as the
continuation value `0.5123`) matches none of the six line grammars and,
arriving inside an open burst, makes the sieve raise — aborting the burst
— rather than being decoded. -/
theorem claim_c9 (n : Nat) (s : List Char) (x : MatchRes)
    (hx : x ∈ (floatRe n).run s) :
    (∃ c rest, x.1 = c :: rest ∧ isNzDigit c = true) ∧
    (metadataRe.match? zeroL = none ∧ tideRe.match? zeroL = none ∧
      waveStartRe.match? zeroL = none ∧ wavePtfreqRe.match? zeroL = none ∧
      waveContRe.match? zeroL = none ∧ waveEndRe.match? zeroL = none) ∧
    sieve_function c9span = .error .recoverableSample := by
  refine ⟨?_, ⟨by decide, by decide, by decide, by decide, by decide, by decide⟩,
    by decide⟩
  have hfl : floatRe n = Regex.group n ((Regex.cls isNzDigit).cat
      (cats [.star isDigitC, .opt (.lit ['.']), .star isDigitC])) := rfl
  rw [hfl] at hx
  have hx2 : ∃ y ∈ ((Regex.cls isNzDigit).cat
      (cats [.star isDigitC, .opt (.lit ['.']), .star isDigitC])).run s,
      x = (y.1, y.2.1, y.2.2 ++ [(n, y.1)]) := by
    rcases List.mem_map.1 hx with ⟨y, hy, rfl⟩
    exact ⟨y, hy, rfl⟩
  obtain ⟨y, hy, rfl⟩ := hx2
  rcases mem_run_cat.1 hy with ⟨a, ha, b, hb, rfl⟩
  cases s with
  | nil => simp [Regex.run] at ha
  | cons c cs =>
      simp only [Regex.run] at ha
      by_cases hc : isNzDigit c = true
      · rw [if_pos hc] at ha
        rcases List.mem_singleton.1 ha with rfl
        exact ⟨c, b.1, rfl, hc⟩
      · rw [if_neg hc] at ha
        simp at ha

set_option maxRecDepth 8000 in
/-- Witness for C9: the one-digit value `1` followed by a newline. -/
theorem claim_c9_witness :
    ((['1'], ['\n'], [(10, ['1'])]) : MatchRes) ∈
        (floatRe 10).run ['1', '\n'] ∧
    ((∃ c rest, (['1'] : List Char) = c :: rest ∧ isNzDigit c = true) ∧
      (metadataRe.match? zeroL = none ∧ tideRe.match? zeroL = none ∧
        waveStartRe.match? zeroL = none ∧ wavePtfreqRe.match? zeroL = none ∧
        waveContRe.match? zeroL = none ∧ waveEndRe.match? zeroL = none) ∧
      sieve_function c9span = .error .recoverableSample) :=
  ⟨by decide, claim_c9 10 ['1', '\n'] (['1'], ['\n'], [(10, ['1'])]) (by decide)⟩

/-! ## CTD decoder claims -/
/-- Folding hex nibbles is bounded by the corresponding power of 16. -/
theorem hexVal_aux_lt : ∀ (ns : List Nat) (acc : Nat), (∀ x ∈ ns, x < 16) →
    List.foldl (fun a n => 16 * a + n) acc ns < (acc + 1) * 16 ^ ns.length := by
  intro ns
  induction ns with
  | nil => intro acc _; simp
  | cons n t ih =>
      intro acc h
      simp only [List.foldl_cons, List.length_cons]
      have h1 := ih (16 * acc + n) (fun x hx => h x (by simp [hx]))
      have h2 : n < 16 := h n (by simp)
      calc List.foldl (fun a n => 16 * a + n) (16 * acc + n) t
          < (16 * acc + n + 1) * 16 ^ t.length := h1
        _ ≤ ((acc + 1) * 16) * 16 ^ t.length := by
            apply Nat.mul_le_mul_right
            omega
        _ = (acc + 1) * 16 ^ (t.length + 1) := by ring

/-- A hex value of at most `k` nibbles is below `16 ^ k`. -/
theorem hexVal_lt {ns : List Nat} (h : ∀ x ∈ ns, x < 16) {k : Nat}
    (hk : ns.length ≤ k) : hexVal ns < 16 ^ k := by
  have h1 := hexVal_aux_lt ns 0 h
  simp only [Nat.zero_add, Nat.one_mul] at h1
  exact lt_of_lt_of_le h1 (Nat.pow_le_pow_right (by omega) hk)

/-- Every nibble of the hex encoding of valid bytes is below 16. -/
theorem ctdAsciihex_lt {bs : List Nat} (h : ∀ b ∈ bs.take 13, b ≤ 255) :
    ∀ x ∈ ctdAsciihex bs, x < 16 := by
  intro x hx
  simp only [ctdAsciihex, b2aHex, List.mem_flatMap] at hx
  obtain ⟨b, hb, hx⟩ := hx
  have hble := h b hb
  simp only [List.mem_cons, List.mem_singleton] at hx
  rcases hx with rfl | rfl | hx
  · omega
  · omega
  · simp at hx

/-- Unpack the conjuncts of a successful `ctdDataMatch`. -/
theorem ctdDataMatch_bytes {bs : List Nat} (h : ctdDataMatch bs = true) :
    ∀ b ∈ bs.take 13, b ≤ 255 := by
  simp only [ctdDataMatch, Bool.and_eq_true, List.all_eq_true] at h
  intro b hb
  exact of_decide_eq_true (h.1.1.2 b hb)

/-- The length of a Python slice is at most the index difference. -/
theorem pySlice_len (l : List Nat) (a b : Nat) : (pySlice l a b).length ≤ b - a := by
  simp [pySlice]

/-- Members of a Python slice are members of the list. -/
theorem pySlice_mem {l : List Nat} {a b x : Nat} (h : x ∈ pySlice l a b) : x ∈ l :=
  List.drop_subset a l (List.take_subset (b - a) (l.drop a) h)

/-- The temperature raw value fits in five nibbles. -/
theorem ctdTempRaw_lt {bs : List Nat} (h : ctdDataMatch bs = true) :
    ctdTempRaw bs < 16 ^ 5 := by
  apply hexVal_lt
  · intro x hx
    exact ctdAsciihex_lt (ctdDataMatch_bytes h) x (pySlice_mem hx)
  · exact le_trans (pySlice_len _ 2 7) (by omega)

/-- The conductivity raw value fits in five nibbles. -/
theorem ctdCondRaw_lt {bs : List Nat} (h : ctdDataMatch bs = true) :
    ctdCondRaw bs < 16 ^ 5 := by
  apply hexVal_lt
  · intro x hx
    exact ctdAsciihex_lt (ctdDataMatch_bytes h) x (pySlice_mem hx)
  · exact le_trans (pySlice_len _ 7 12) (by omega)

/-- Nat division of naturals is the floor of their rational quotient. -/
theorem nat_div_eq_floor (a b : Nat) :
    a / b = Nat.floor ((a : ℚ) / (b : ℚ)) := by
  rw [Nat.floor_div_nat ((a : ℚ)) b, Nat.floor_natCast]

/-- Counterexample for claim C2: the record `c2bytes` has temperature raw
value 12345, and under Python 2 the decoder computes
`12345 / 10000 - 10 = 1 - 10 = -9` with integer floor division, not the
exact rational `12345 / 10000 - 10 = -8.7655` the claim asserts. -/
theorem claim_c2_counterexample :
    ctdTempRaw c2bytes = 12345 ∧
    (ctdDecode c2bytes).map (fun s => s.temperature) ≠
      some ((12345 : ℚ) / 10000 - 10) := by
  refine ⟨by decide, ?_⟩
  have h1 : ctdDataMatch c2bytes = true := by decide
  have h2 : ctdTempRaw c2bytes = 12345 := by decide
  simp only [ctdDecode, h1, if_true, h2, Option.map_some', ne_eq, Option.some.injEq]
  norm_num

/-- Claim C2 (amended): for every byte range matching the CTD pattern the
decoder returns `temperature = ⌊raw_t / 10000⌋ - 10` and
`conductivity = ⌊raw_c / 100000⌋ - 0.5` with Python 2 integer floor
division (not exact rational division), and the byte-swapped pressure
formula exactly as claimed; moreover the five-hex-digit raw values satisfy
`raw < 16^5 = 1048576`, so the claim's example raw value
`0x1E8480 = 2000000` cannot arise from any record. -/
theorem claim_c2 (bs : List Nat) (h : ctdDataMatch bs = true) :
    ctdDecode bs = some
      { temperature := ((ctdTempRaw bs / 10000 : Nat) : ℚ) - 10,
        conductivity := ((ctdCondRaw bs / 100000 : Nat) : ℚ) - 0.5,
        pressure := (ctdPressRaw bs : ℚ) * pressureRange / (0.85 * 65536)
          - 0.05 * pressureRange } ∧
    ctdTempRaw bs / 10000 = Nat.floor ((ctdTempRaw bs : ℚ) / 10000) ∧
    ctdCondRaw bs / 100000 = Nat.floor ((ctdCondRaw bs : ℚ) / 100000) ∧
    ctdTempRaw bs < 16 ^ 5 ∧ ctdCondRaw bs < 16 ^ 5 := by
  refine ⟨by simp [ctdDecode, h], ?_, ?_, ctdTempRaw_lt h, ctdCondRaw_lt h⟩
  · have := nat_div_eq_floor (ctdTempRaw bs) 10000
    simpa using this
  · have := nat_div_eq_floor (ctdCondRaw bs) 100000
    simpa using this

/-- Witness for C2 (amended) at the record `c2bytes`. -/
theorem claim_c2_witness :
    ctdDataMatch c2bytes = true ∧
    (ctdDecode c2bytes = some
        { temperature := ((ctdTempRaw c2bytes / 10000 : Nat) : ℚ) - 10,
          conductivity := ((ctdCondRaw c2bytes / 100000 : Nat) : ℚ) - 0.5,
          pressure := (ctdPressRaw c2bytes : ℚ) * pressureRange / (0.85 * 65536)
            - 0.05 * pressureRange } ∧
      ctdTempRaw c2bytes / 10000 = Nat.floor ((ctdTempRaw c2bytes : ℚ) / 10000) ∧
      ctdCondRaw c2bytes / 100000 = Nat.floor ((ctdCondRaw c2bytes : ℚ) / 100000) ∧
      ctdTempRaw c2bytes < 16 ^ 5 ∧ ctdCondRaw c2bytes < 16 ^ 5) :=
  ⟨by decide, claim_c2 c2bytes (by decide)⟩

/-- Counterexample for claim C3: the code's epoch shift is
`31557600 * 30 = 946728000` seconds (thirty Julian years of 365.25 days),
not the `30 * 31536000 = 946080000` seconds (thirty 365-day years) the
claim asserts. -/
theorem claim_c3_counterexample :
    convertTimeToTimestamp 0 = 946728000 ∧
      convertTimeToTimestamp 0 ≠ 0 + 30 * 31536000 := by decide

/-- Claim C3 (amended): the timestamp normalizer reverses the byte order
of the 4-byte field (interpreting the stored bytes little-endian, i.e.
reversing the order in which they arrive) and adds the fixed offset
`31557600 * 30 = 946728000` seconds — thirty years of 365.25 days each,
not thirty non-leap years. -/
theorem claim_c3 (b8 b9 b10 b11 s : Nat) :
    ctdTimeVal [b8, b9, b10, b11] =
      b8 + 256 * b9 + 65536 * b10 + 16777216 * b11 ∧
    convertTimeToTimestamp s = s + 946728000 := by
  constructor
  · simp only [ctdTimeVal, b2aHex, pySlice, hexVal, List.flatMap_cons,
      List.flatMap_nil, List.append_nil, List.cons_append, List.nil_append,
      List.drop_succ_cons, List.drop_zero, List.take_succ_cons, List.take_zero,
      List.foldl_cons, List.foldl_nil]
    omega
  · simp [convertTimeToTimestamp]

/-- Claim C7: when the two pressure bytes are `0x12` then `0x34`, the
decoder byte-swaps before interpreting: the raw pressure value is
`0x3412 = 13330`, not `0x1234`, and the decoded pressure applies the
conversion formula to 13330. -/
theorem claim_c7 (b0 b1 b2 b3 b4 b5 b8 b9 b10 b11 b12 : Nat)
    (h : ctdDataMatch [b0, b1, b2, b3, b4, b5, 0x12, 0x34, b8, b9, b10, b11, b12] =
      true) :
    ctdPressRaw [b0, b1, b2, b3, b4, b5, 0x12, 0x34, b8, b9, b10, b11, b12] =
      13330 ∧
    (ctdDecode [b0, b1, b2, b3, b4, b5, 0x12, 0x34, b8, b9, b10, b11, b12]).map
        (fun x => x.pressure) =
      some ((13330 : ℚ) * pressureRange / (0.85 * 65536) -
        0.05 * pressureRange) := by
  have hp : ctdPressRaw [b0, b1, b2, b3, b4, b5, 0x12, 0x34, b8, b9, b10, b11, b12] =
      13330 := by
    simp only [ctdPressRaw, ctdAsciihex, b2aHex, pySlice, hexVal,
      List.take_succ_cons, List.take_zero, List.flatMap_cons, List.flatMap_nil,
      List.append_nil, List.cons_append, List.nil_append, List.drop_succ_cons,
      List.drop_zero, List.foldl_cons, List.foldl_nil]
  refine ⟨hp, ?_⟩
  simp [ctdDecode, h, hp]

/-- Witness for C7 at the record `c7bytes`. -/
theorem claim_c7_witness :
    ctdDataMatch c7bytes = true ∧
    (ctdPressRaw c7bytes = 13330 ∧
      (ctdDecode c7bytes).map (fun x => x.pressure) =
        some ((13330 : ℚ) * pressureRange / (0.85 * 65536) -
          0.05 * pressureRange)) :=
  ⟨by decide, claim_c7 0 0 0 0 0 0 0 0 0 0x16 0x0d (by decide)⟩
